import Mathlib

/-!
Verification development for the `lpm` longest-prefix-match trie.

The Go source (`lpm.go`) is shallowly embedded below.  Machine integers are
modelled as `Nat` with explicit reductions modulo `2^32` where the Go code
relies on `uint32` wrap-around.  Go byte slices become `List Nat`, Go strings
(used as opaque byte-string values) become `List Nat`, and the two-element
per-family arrays (`[2][]LPMBlock`) become two-element lists indexed by the
protocol number.  Fallible operations (`PackToSharedStorage`,
`NewWithSharedStorage`) return `Except String`.
-/

namespace Lpm

/-- A trie block: 256 slots of 32-bit words (`type LPMBlock [256]uint32`). -/
abbrev LPMBlock := List Nat

/-- Protocol index for IPv4 (`v4LPM = 0`). -/
def v4LPM : Nat := 0

/-- Protocol index for IPv6 (`v6LPM = 1`). -/
def v6LPM : Nat := 1

/-- Top two bits set: marker of a block reference (`blockRefMask`). -/
def blockRefMask : Nat := 0xC0000000

/-- Bottom 30 bits: payload of a block reference (`blockIndexMask`). -/
def blockIndexMask : Nat := 0x3FFFFFFF

/-- Shift distance of the prefix-length byte (`prefixLenShift`). -/
def prefixLenShift : Nat := 24

/-- Bottom 24 bits: payload of a terminal value (`valueIndexMask`). -/
def valueIndexMask : Nat := 0x00FFFFFF

/-- Number of slots per block (`blockSize`). -/
def blockSize : Nat := 256

/-- Magic number of the packed image (`magicNumber`). -/
def magicNumber : Nat := 0x4C504D00

/-- Version of the packed image format (`currentVersion`). -/
def currentVersion : Nat := 1

/-- The modulus of Go's `uint32` arithmetic. -/
def pow32 : Nat := 4294967296

/-- Encoding of a terminal slot (`encodeValue`): Go computes
`(uint32(prefixLen+1) << prefixLenShift) | uint32(valueIdx)`, where both
conversions and the shift reduce modulo `2^32`. -/
def encodeValue (valueIdx prefixLen : Nat) : Nat :=
  ((((prefixLen + 1) % pow32) <<< prefixLenShift) % pow32) ||| (valueIdx % pow32)

/-- Encoding of a block reference (`encodeBlockRef`): `blockRefMask | uint32(blockIdx)`. -/
def encodeBlockRef (blockIdx : Nat) : Nat :=
  blockRefMask ||| (blockIdx % pow32)

/-- Decoding of a terminal slot (`decodeValue`).  The Go function returns the
pair `(int(encoded & valueIndexMask), int(encoded >> prefixLenShift) - 1)`;
the prefix length is an `Int` because Go computes it in `int` and it can be
`-1` on a word whose top byte is zero. -/
def decodeValue (encoded : Nat) : Nat × Int :=
  (encoded &&& valueIndexMask, (encoded >>> prefixLenShift : Int) - 1)

/-- Decoding of a block reference (`decodeBlockRef`). -/
def decodeBlockRef (encoded : Nat) : Nat :=
  encoded &&& blockIndexMask

/-- Test for a block reference (`isBlockRef`): top two bits are `11`. -/
def isBlockRef (encoded : Nat) : Bool :=
  encoded &&& blockRefMask == blockRefMask

/-- Test for the empty slot (`isInvalid`): the word is exactly zero. -/
def isInvalid (encoded : Nat) : Bool :=
  encoded == 0

/-- A block of 256 zero slots. -/
def zeroBlock : LPMBlock := List.replicate blockSize 0

/-- The state of the trie (`type LPM struct`).  `shared` and `dynamic` are
two-element lists indexed by the protocol (`[2][]LPMBlock`); `values` is the
deduplication map and `revValues` its inverse table. -/
structure LPM where
  shared : List (List LPMBlock)
  sharedValues : List Nat
  sharedValuesSlotSize : Nat
  sharedValueCount : Nat
  dynamic : List (List LPMBlock)
  values : List (List Nat × Nat)
  revValues : List (List Nat)
  deriving Repr, DecidableEq

/-- Construction of the empty trie (`New()`): one zeroed dynamic root block
per family, no shared tiers, empty value table. -/
def New : LPM :=
  { shared := [[], []]
    sharedValues := []
    sharedValuesSlotSize := 0
    sharedValueCount := 0
    dynamic := [[zeroBlock], [zeroBlock]]
    values := []
    revValues := [] }

namespace LPM

/-- The shared block tier of one family (`m.shared[proto]`). -/
def sharedOf (m : LPM) (proto : Nat) : List LPMBlock :=
  m.shared.getD proto []

/-- The dynamic block tier of one family (`m.dynamic[proto]`). -/
def dynamicOf (m : LPM) (proto : Nat) : List LPMBlock :=
  m.dynamic.getD proto []

/-- Total number of blocks of one family: shared count plus dynamic count. -/
def totalBlocks (m : LPM) (proto : Nat) : Nat :=
  (m.sharedOf proto).length + (m.dynamicOf proto).length

/-- Fetch a block by logical index (`getBlockRef`): indices below the shared
count hit the shared tier, the rest hit the dynamic tier offset by the shared
count. -/
def getBlockRef (m : LPM) (proto blockIdx : Nat) : LPMBlock :=
  if blockIdx < (m.sharedOf proto).length then (m.sharedOf proto).getD blockIdx []
  else (m.dynamicOf proto).getD (blockIdx - (m.sharedOf proto).length) []

/-- Read one slot (`getValue`): dispatch between shared and dynamic tier. -/
def getValue (m : LPM) (proto block slot : Nat) : Nat :=
  if block < (m.sharedOf proto).length then ((m.sharedOf proto).getD block []).getD slot 0
  else ((m.dynamicOf proto).getD (block - (m.sharedOf proto).length) []).getD slot 0

/-- Write one slot (`setValue`): dispatch between shared and dynamic tier. -/
def setValue (m : LPM) (proto block slot value : Nat) : LPM :=
  if block < (m.sharedOf proto).length then
    { m with shared := (m.shared.set proto ((m.sharedOf proto).set block
        (((m.sharedOf proto).getD block []).set slot value))) }
  else
    { m with dynamic := (m.dynamic.set proto ((m.dynamicOf proto).set
        (block - (m.sharedOf proto).length)
        (((m.dynamicOf proto).getD (block - (m.sharedOf proto).length) []).set slot value))) }

/-- Replace a whole block in place; this models Go's writes through the
`*LPMBlock` pointer returned by `getBlockRef`. -/
def setBlock (m : LPM) (proto blockIdx : Nat) (blk : LPMBlock) : LPM :=
  if blockIdx < (m.sharedOf proto).length then
    { m with shared := m.shared.set proto ((m.sharedOf proto).set blockIdx blk) }
  else
    { m with dynamic := (m.dynamic.set proto
        ((m.dynamicOf proto).set (blockIdx - (m.sharedOf proto).length) blk)) }

/-- Append a freshly created block to the dynamic tier of one family. -/
def appendBlock (m : LPM) (proto : Nat) (blk : LPMBlock) : LPM :=
  { m with dynamic := m.dynamic.set proto (m.dynamicOf proto ++ [blk]) }

end LPM

/-- Creation of a block filled with an initial slot (`blockWithValue`): a
zero block when the initial slot is empty, otherwise 256 copies of it. -/
def blockWithValue (initValue : Nat) : LPMBlock :=
  if isInvalid initValue then zeroBlock
  else List.replicate blockSize initValue

/-- Linear search in the value-deduplication map (Go's `m.values[value]`). -/
def assocIdx : List (List Nat × Nat) → List Nat → Option Nat
  | [], _ => none
  | (k, i) :: rest, v => if k = v then some i else assocIdx rest v

namespace LPM

/-- Interning of a value (`addValue`): reuse the index of an identical dynamic
value, otherwise append at logical index `sharedValueCount + |revValues|`. -/
def addValue (m : LPM) (value : List Nat) : LPM × Nat :=
  match assocIdx m.values value with
  | some valueIdx => (m, valueIdx)
  | none =>
    let valueIdx := m.sharedValueCount + m.revValues.length
    ({ m with values := (value, valueIdx) :: m.values
              revValues := m.revValues ++ [value] }, valueIdx)

/-- Retrieval of a value by index (`getValueByIndex`): shared-tier slots are
length-prefixed fixed-size records, dynamic values live in `revValues`. -/
def getValueByIndex (m : LPM) (valueIdx : Nat) : List Nat × Bool :=
  if valueIdx < m.sharedValueCount then
    if m.sharedValues = [] ∨ m.sharedValuesSlotSize = 0 then ([], false)
    else
      let offset := valueIdx * m.sharedValuesSlotSize
      if m.sharedValues.length < offset + m.sharedValuesSlotSize then ([], false)
      else
        let strLen := m.sharedValues.getD offset 0
        if strLen = 0 ∨ m.sharedValues.length < offset + 1 + strLen then ([], false)
        else ((m.sharedValues.drop (offset + 1)).take strLen, true)
  else
    let dynamicIdx := valueIdx - m.sharedValueCount
    if m.revValues.length ≤ dynamicIdx then ([], false)
    else (m.revValues.getD dynamicIdx [], true)

/-- One iteration of the range loop inside `propagateValue`: a slot holding a
block reference has the new terminal propagated into the empty slots of the
referenced block; an empty slot receives the new terminal; an existing
terminal is overwritten if and only if the new prefix length is at least the
stored one. -/
def propagateStep (proto blockIdx prefixLen newValue : Nat) (m : LPM)
    (inBlockIdx : Nat) : LPM :=
  let currentVal := m.getValue proto blockIdx inBlockIdx
  if isBlockRef currentVal then
    let innerBlockIdx := decodeBlockRef currentVal
    let innerBlock := m.getBlockRef proto innerBlockIdx
    m.setBlock proto innerBlockIdx
      (innerBlock.map fun val => if isInvalid val then newValue else val)
  else if isInvalid currentVal then
    m.setValue proto blockIdx inBlockIdx newValue
  else
    let existingPrefixLen := (decodeValue currentVal).2
    if (prefixLen : Int) ≥ existingPrefixLen then
      m.setValue proto blockIdx inBlockIdx newValue
    else m

/-- Propagation of a terminal across a slot range (`propagateValue`): the
encoded terminal is written over the inclusive range `[startIdx, endIdx]`. -/
def propagateValue (m : LPM) (proto blockIdx valueIdx prefixLen startIdx endIdx : Nat) :
    LPM :=
  let newValue := encodeValue valueIdx prefixLen
  (List.range' startIdx (endIdx + 1 - startIdx)).foldl
    (propagateStep proto blockIdx prefixLen newValue) m

/-- The byte-walk of `Insert`: `idx` is the current byte position and
`blockIdx` the current block.  When the prefix terminates within the current
byte (`tail ≥ 0`), the masked slot range receives the terminal; otherwise the
walk follows an existing block reference or allocates a child block seeded
with the evicted slot value. -/
def insertLoop (proto valueIdx prefixLen : Nat) :
    List Nat → Nat → Nat → LPM → LPM
  | [], _, _, m => m
  | inBlockIdx :: rest, idx, blockIdx, m =>
    if prefixLen ≤ (idx + 1) * 8 then
      let tail := (idx + 1) * 8 - prefixLen
      let mask := (0xff <<< tail) % 256
      let startIdx := inBlockIdx &&& mask
      let endIdx := startIdx ||| (0xff ^^^ mask)
      m.propagateValue proto blockIdx valueIdx prefixLen startIdx endIdx
    else
      let currentVal := m.getValue proto blockIdx inBlockIdx
      if isBlockRef currentVal then
        insertLoop proto valueIdx prefixLen rest (idx + 1) (decodeBlockRef currentVal) m
      else
        let newBlockIdx := m.totalBlocks proto
        let m := m.setValue proto blockIdx inBlockIdx (encodeBlockRef newBlockIdx)
        let m := m.appendBlock proto (blockWithValue currentVal)
        insertLoop proto valueIdx prefixLen rest (idx + 1) newBlockIdx m

end LPM

/-- An IP network: the byte representation of its address (4 bytes for IPv4,
16 bytes for IPv6, matching `netip.Addr.AsSlice`) and its prefix bit length
(`netip.Prefix.Bits`). -/
structure Cidr where
  addr : List Nat
  bits : Nat
  deriving Repr, DecidableEq

namespace LPM

/-- Insertion of a network with a value (`Insert`): the value is interned,
the family is selected by `Is6` (a 16-byte representation), and the byte walk
starts at the root block 0. -/
def Insert (m : LPM) (net : Cidr) (value : List Nat) : LPM :=
  let (m, valueIdx) := m.addValue value
  let proto := if net.addr.length = 16 then v6LPM else v4LPM
  insertLoop proto valueIdx net.bits net.addr 0 0 m

/-- The byte-walk of `Lookup`: follow block references until a terminal or an
empty slot is read. -/
def lookupLoop (m : LPM) (proto : Nat) : List Nat → Nat → List Nat × Bool
  | [], _ => ([], false)
  | inBlockIdx :: rest, blockIdx =>
    let value := m.getValue proto blockIdx inBlockIdx
    if isBlockRef value then
      m.lookupLoop proto rest (decodeBlockRef value)
    else if isInvalid value then ([], false)
    else m.getValueByIndex (decodeValue value).1

/-- Lookup of an address (`Lookup`): family selected by `Is6`, walk from the
root block 0. -/
def Lookup (m : LPM) (addr : List Nat) : List Nat × Bool :=
  let proto := if addr.length = 16 then v6LPM else v4LPM
  m.lookupLoop proto addr 0

end LPM

/-! ### The packed image: serialization and loading

The packed image is a flat byte buffer; bytes are modelled as `Nat` entries of
a `List Nat`.  All 32-bit fields are little-endian, matching the native order
assumed by the Go code's `unsafe` reinterpretation. -/

/-- Little-endian bytes of a 32-bit word (the low 32 bits of `n`). -/
def le32 (n : Nat) : List Nat :=
  [n % 256, n / 256 % 256, n / 65536 % 256, n / 16777216 % 256]

/-- Read a little-endian 32-bit word at a byte offset. -/
def readLE32 (s : List Nat) (off : Nat) : Nat :=
  s.getD off 0 + 256 * s.getD (off + 1) 0 + 65536 * s.getD (off + 2) 0 +
    16777216 * s.getD (off + 3) 0

/-- The 1024-byte raw image of one block: 256 little-endian 32-bit slots. -/
def blockBytes (blk : LPMBlock) : List Nat :=
  (blk.map le32).flatten

/-- Byte length of the fixed 36-byte `StorageHeader`. -/
def headerSize : Nat := 36

/-- Byte length of one block image (`blockSize * 4`). -/
def blockByteSize : Nat := 1024

/-- Length byte of the shared-tier value slot `i` (first byte of the slot). -/
def sharedStrLen (m : LPM) (i : Nat) : Nat :=
  m.sharedValues.getD (i * m.sharedValuesSlotSize) 0

/-- Whether `PackToSharedStorage` touches the shared value tier at all: Go
guards every access with `m.sharedValueCount > 0 && len(m.sharedValues) > 0`. -/
def sharedValuesUsed (m : LPM) : Prop :=
  0 < m.sharedValueCount ∧ m.sharedValues ≠ []

instance (m : LPM) : Decidable (sharedValuesUsed m) := by
  unfold sharedValuesUsed; infer_instance

/-- Repacked image of shared-tier value slot `i`: the length byte, the
payload bytes read from the old shared tier, and zero padding up to the new
slot size. -/
def sharedSlotBytes (m : LPM) (slotSize i : Nat) : List Nat :=
  let srcOffset := i * m.sharedValuesSlotSize
  let strLen := sharedStrLen m i
  strLen :: ((m.sharedValues.drop (srcOffset + 1)).take strLen ++
    List.replicate (slotSize - 1 - strLen) 0)

/-- Image of a dynamic value in a fixed-size slot: length byte, payload, zero
padding. -/
def dynSlotBytes (slotSize : Nat) (val : List Nat) : List Nat :=
  val.length :: (val ++ List.replicate (slotSize - 1 - val.length) 0)

/-- Largest element of a list of naturals, `0` for the empty list. -/
def listMax (l : List Nat) : Nat := l.foldl max 0

namespace LPM

/-- Maximum value length seen by the pack scan: the shared tier contributes
its length bytes (only when the shared tier is in use), the dynamic tier its
value lengths. -/
def maxValueLen (m : LPM) : Nat :=
  listMax ((if sharedValuesUsed m then (List.range m.sharedValueCount).map (sharedStrLen m)
            else []) ++ m.revValues.map List.length)

/-- Slot size of the value region written by pack (`maxValueLen + 1`). -/
def packedValueSlotSize (m : LPM) : Nat := m.maxValueLen + 1

/-- Value count written by pack (`sharedValueCount + len(revValues)`). -/
def packedValueCount (m : LPM) : Nat := m.sharedValueCount + m.revValues.length

/-- One family's block region written by pack: shared blocks then dynamic
blocks, each as its raw 1024-byte image. -/
def packedBlocksBytes (m : LPM) (proto : Nat) : List Nat :=
  (((m.sharedOf proto) ++ (m.dynamicOf proto)).map blockBytes).flatten

/-- The value slots pack actually writes: repacked shared slots (only when the
shared tier is in use) followed by the dynamic values. -/
def packedWrittenSlots (m : LPM) : List (List Nat) :=
  (if sharedValuesUsed m then
    (List.range m.sharedValueCount).map (sharedSlotBytes m (packedValueSlotSize m))
   else []) ++ m.revValues.map (dynSlotBytes (packedValueSlotSize m))

/-- The value region written by pack: the written slots followed by the zero
bytes of any slots Go's write offset never reached (this happens exactly when
the shared tier is unused but `sharedValueCount` is nonzero, because the
write offset then starts at the region base and is advanced only past the
dynamic slots). -/
def packedValueBytes (m : LPM) : List Nat :=
  (packedWrittenSlots m).flatten ++
    List.replicate
      ((packedValueCount m -
        ((if sharedValuesUsed m then m.sharedValueCount else 0) + m.revValues.length)) *
        packedValueSlotSize m) 0

/-- The 36-byte header written by pack, as little-endian fields. -/
def packedHeader (m : LPM) : List Nat :=
  ([magicNumber, currentVersion, m.totalBlocks v4LPM, m.totalBlocks v6LPM,
    packedValueCount m, packedValueSlotSize m, headerSize,
    headerSize + m.totalBlocks v4LPM * blockByteSize,
    headerSize + m.totalBlocks v4LPM * blockByteSize +
      m.totalBlocks v6LPM * blockByteSize].map le32).flatten

/-- The full byte buffer written by pack: header, IPv4 blocks, IPv6 blocks,
value region, at consecutive offsets. -/
def packedStorage (m : LPM) : List Nat :=
  packedHeader m ++
    (packedBlocksBytes m v4LPM ++ (packedBlocksBytes m v6LPM ++ packedValueBytes m))

/-- Serialization of the trie into a byte buffer (`PackToSharedStorage`):
header, IPv4 blocks (shared then dynamic), IPv6 blocks, then value slots.
Fails when a value exceeds 255 bytes. -/
def PackToSharedStorage (m : LPM) : Except String (List Nat) :=
  if sharedValuesUsed m ∧
      ((List.range m.sharedValueCount).map (sharedStrLen m)).any (fun l => 255 < l) then
    Except.error "shared value exceeds 255 bytes"
  else if m.revValues.any (fun val => 255 < val.length) then
    Except.error "value exceeds 255 bytes"
  else
    Except.ok (packedStorage m)

end LPM

/-- Deserialize one region of blocks as a view over the buffer. -/
def blocksView (storage : List Nat) (off count : Nat) : List LPMBlock :=
  (List.range count).map fun b =>
    (List.range blockSize).map fun s => readLE32 storage (off + b * blockByteSize + s * 4)

/-- Loading of a packed image (`NewWithSharedStorage`): validate the header
size, magic, version and the declared regions, then map the block and value
regions; a family with zero blocks in the image is seeded with one zeroed
dynamic root block. -/
def NewWithSharedStorage (storage : List Nat) : Except String LPM :=
  if storage.length < headerSize then
    Except.error "storage too small for header"
  else
    let magic := readLE32 storage 0
    let version := readLE32 storage 4
    let v4BlockCount := readLE32 storage 8
    let v6BlockCount := readLE32 storage 12
    let valueCount := readLE32 storage 16
    let valueSlotSize := readLE32 storage 20
    let v4BlocksOffset := readLE32 storage 24
    let v6BlocksOffset := readLE32 storage 28
    let valuesOffset := readLE32 storage 32
    if magic ≠ magicNumber then Except.error "invalid magic number"
    else if version ≠ currentVersion then Except.error "unsupported version"
    else if 0 < v4BlockCount ∧
        storage.length < v4BlocksOffset + v4BlockCount * blockByteSize then
      Except.error "storage too small for IPv4 blocks"
    else if 0 < v6BlockCount ∧
        storage.length < v6BlocksOffset + v6BlockCount * blockByteSize then
      Except.error "storage too small for IPv6 blocks"
    else if 0 < valueCount ∧ 0 < valueSlotSize ∧
        storage.length < valuesOffset + valueCount * valueSlotSize then
      Except.error "storage too small for values"
    else
      Except.ok
        { shared := [blocksView storage v4BlocksOffset v4BlockCount,
                     blocksView storage v6BlocksOffset v6BlockCount]
          sharedValues :=
            if 0 < valueCount ∧ 0 < valueSlotSize then
              (storage.drop valuesOffset).take (valueCount * valueSlotSize)
            else []
          sharedValuesSlotSize := valueSlotSize
          sharedValueCount := valueCount
          dynamic := [if v4BlockCount = 0 then [zeroBlock] else [],
                      if v6BlockCount = 0 then [zeroBlock] else []]
          values := []
          revValues := [] }

/-- All blocks of one family in logical index order: shared then dynamic.
This is what the shared tier of a reloaded image contains. -/
def loadedBlocks (m : LPM) (proto : Nat) : List LPMBlock :=
  m.sharedOf proto ++ m.dynamicOf proto

/-- The trie state produced by `NewWithSharedStorage` on the output of
`PackToSharedStorage` (for well-formed tries; see the round-trip lemmas):
every block becomes a shared block, every value a shared value. -/
def loadedState (m : LPM) : LPM :=
  { shared := [loadedBlocks m v4LPM, loadedBlocks m v6LPM]
    sharedValues :=
      if 0 < LPM.packedValueCount m then LPM.packedValueBytes m else []
    sharedValuesSlotSize := LPM.packedValueSlotSize m
    sharedValueCount := LPM.packedValueCount m
    dynamic := [if m.totalBlocks v4LPM = 0 then [zeroBlock] else [],
                if m.totalBlocks v6LPM = 0 then [zeroBlock] else []]
    values := []
    revValues := [] }

/-! ### Specification-side vocabulary

Definitions below formalize notions the claims use to talk about the code:
the base address of a network and address containment.  They are written from
the specification's words, for comparison against the embedded code. -/

/-- Mask applied to byte `i` of an address by a prefix of `bits` bits: bytes
fully inside the prefix are kept, bytes fully outside become zero, the
straddling byte keeps its leading bits. -/
def maskByte (bits i b : Nat) : Nat :=
  if (i + 1) * 8 ≤ bits then b
  else if bits ≤ i * 8 then 0
  else b &&& ((0xff <<< ((i + 1) * 8 - bits)) % 256)

/-- Masked suffix of an address starting at byte position `i`. -/
def baseFrom (bits : Nat) : Nat → List Nat → List Nat
  | _, [] => []
  | i, b :: rest => maskByte bits i b :: baseFrom bits (i + 1) rest

/-- The base address of a network: its address with all bits beyond the
prefix length cleared. -/
def baseAddr (net : Cidr) : List Nat :=
  baseFrom net.bits 0 net.addr

/-- Address containment: the address has the family's length and agrees with
the network on the first `bits` bits. -/
def cidrContains (net : Cidr) (addr : List Nat) : Bool :=
  net.addr.length == addr.length &&
    baseFrom net.bits 0 net.addr == baseFrom net.bits 0 addr

/-! ### Well-formedness predicates

These capture the structural invariants §3 of the specification ascribes to a
trie (block shape, value-table shape, value references), which hold for every
trie the Go type system and API can produce: blocks are 256 `uint32` slots,
the per-family tier arrays have two entries, shared value slots lie inside the
shared buffer, and terminal slots reference existing values.  (§7 declares
structurally corrupted states undefined behavior.) -/

/-- The two per-family tier arrays have exactly two entries, as in the Go
struct `[2][]LPMBlock`. -/
def wfTiers (m : LPM) : Prop :=
  m.shared.length = 2 ∧ m.dynamic.length = 2

instance (m : LPM) : Decidable (wfTiers m) := by
  unfold wfTiers; infer_instance

/-- Every block has exactly 256 slots and every slot fits in 32 bits, as
guaranteed by the Go types `LPMBlock [256]uint32`. -/
def wfBlocks (m : LPM) : Prop :=
  ∀ blk ∈ m.shared.flatten ++ m.dynamic.flatten,
    blk.length = blockSize ∧ ∀ w ∈ blk, w < pow32

instance (m : LPM) : Decidable (wfBlocks m) := by
  unfold wfBlocks; infer_instance

/-- The shared value tier is shaped as the loader produces it: a buffer of
`count * slotSize` bytes with nonzero slot size, each slot's declared payload
lying inside the buffer and its length byte at most 255. -/
def wfSharedValues (m : LPM) : Prop :=
  m.sharedValueCount ≠ 0 →
    0 < m.sharedValuesSlotSize ∧
    m.sharedValues.length = m.sharedValueCount * m.sharedValuesSlotSize ∧
    (∀ b ∈ m.sharedValues, b < 256) ∧
    ∀ i < m.sharedValueCount,
      i * m.sharedValuesSlotSize + 1 + sharedStrLen m i ≤ m.sharedValues.length

instance (m : LPM) : Decidable (wfSharedValues m) := by
  unfold wfSharedValues; infer_instance

/-- Every terminal slot of one family references an existing value: its
24-bit value index is below the total value count. -/
def wfValueRefs (m : LPM) (proto : Nat) : Prop :=
  ∀ b < m.totalBlocks proto, ∀ s < blockSize,
    isBlockRef (m.getValue proto b s) = false → m.getValue proto b s ≠ 0 →
      m.getValue proto b s &&& valueIndexMask <
        m.sharedValueCount + m.revValues.length

instance (m : LPM) (proto : Nat) : Decidable (wfValueRefs m proto) := by
  unfold wfValueRefs; infer_instance

/-- The packed image of the trie fits in 32-bit offsets. -/
def packFits (m : LPM) : Prop :=
  headerSize + (m.totalBlocks v4LPM + m.totalBlocks v6LPM) * blockByteSize +
    LPM.packedValueCount m * LPM.packedValueSlotSize m < pow32

instance (m : LPM) : Decidable (packFits m) := by
  unfold packFits; infer_instance

/-- Two tries with identical value tables (the fields `getValueByIndex`
reads). -/
def eqValueFields (m1 m2 : LPM) : Prop :=
  m1.sharedValues = m2.sharedValues ∧
  m1.sharedValuesSlotSize = m2.sharedValuesSlotSize ∧
  m1.sharedValueCount = m2.sharedValueCount ∧
  m1.revValues = m2.revValues

/-- Modelled from the spec: the error condition claim C6 ascribes to
`NewWithSharedStorage` — the buffer is smaller than the 36-byte header, the
magic or version fields are wrong, or a region declared in the header (blocks
or values, when its count is nonzero) extends past the end of the buffer. -/
def loadErrorSpec (storage : List Nat) : Prop :=
  storage.length < headerSize ∨
  readLE32 storage 0 ≠ magicNumber ∨
  readLE32 storage 4 ≠ currentVersion ∨
  (0 < readLE32 storage 8 ∧
    storage.length < readLE32 storage 24 + readLE32 storage 8 * blockByteSize) ∨
  (0 < readLE32 storage 12 ∧
    storage.length < readLE32 storage 28 + readLE32 storage 12 * blockByteSize) ∨
  (0 < readLE32 storage 16 ∧
    storage.length < readLE32 storage 32 + readLE32 storage 16 * readLE32 storage 20)

instance (storage : List Nat) : Decidable (loadErrorSpec storage) := by
  unfold loadErrorSpec; infer_instance

/-! ### Slot codec lemmas -/

theorem lor_shiftRight (a b n : Nat) : (a ||| b) >>> n = (a >>> n) ||| (b >>> n) := by
  apply Nat.eq_of_testBit_eq
  intro i
  simp [Nat.testBit_shiftRight, Nat.testBit_or]

theorem land_shiftLeft_right (a b n : Nat) :
    a &&& (b <<< n) = ((a >>> n) &&& b) <<< n := by
  apply Nat.eq_of_testBit_eq
  intro i
  simp only [Nat.testBit_and, Nat.testBit_shiftLeft, Nat.testBit_shiftRight]
  rcases Nat.lt_or_ge i n with h | h
  · simp [Nat.not_le.mpr h]
  · simp [Nat.le_of_lt, h, ge_iff_le, Nat.add_sub_cancel' h]

theorem lor_land_absorb (a b : Nat) : a ||| (b &&& a) = a := by
  apply Nat.eq_of_testBit_eq
  intro i
  simp only [Nat.testBit_or, Nat.testBit_and]
  cases a.testBit i <;> simp

theorem encodeValue_eq (v p : Nat) (hv : v < 16777216) (hp : p ≤ 128) :
    encodeValue v p = ((p + 1) <<< 24) ||| v := by
  unfold encodeValue pow32 prefixLenShift
  have h1 : (p + 1) % 4294967296 = p + 1 := Nat.mod_eq_of_lt (by omega)
  have h2 : (p + 1) <<< 24 = (p + 1) * 2 ^ 24 := Nat.shiftLeft_eq _ _
  have h3 : (p + 1) <<< 24 % 4294967296 = (p + 1) <<< 24 := by
    rw [h2]; exact Nat.mod_eq_of_lt (by nlinarith)
  rw [h1, h3, Nat.mod_eq_of_lt (by omega)]

theorem encodeValue_shiftRight (v p : Nat) (hv : v < 16777216) (hp : p ≤ 128) :
    encodeValue v p >>> 24 = p + 1 := by
  rw [encodeValue_eq v p hv hp, lor_shiftRight]
  have h1 : ((p + 1) <<< 24) >>> 24 = p + 1 := by
    rw [Nat.shiftLeft_eq, Nat.shiftRight_eq_div_pow]
    exact Nat.mul_div_cancel _ (by norm_num)
  have h2 : v >>> 24 = 0 := by
    rw [Nat.shiftRight_eq_div_pow]
    exact Nat.div_eq_of_lt hv
  rw [h1, h2, Nat.or_zero]

theorem encodeValue_land_low (v p : Nat) (hv : v < 16777216) (hp : p ≤ 128) :
    encodeValue v p &&& valueIndexMask = v := by
  rw [encodeValue_eq v p hv hp]
  have hm : valueIndexMask = 2 ^ 24 - 1 := rfl
  rw [Nat.and_distrib_right, hm, Nat.and_pow_two_sub_one_eq_mod,
    Nat.and_pow_two_sub_one_eq_mod, Nat.shiftLeft_eq, Nat.mul_mod_left,
    Nat.mod_eq_of_lt hv]
  simp

theorem decodeValue_encodeValue (v p : Nat) (hv : v < 16777216) (hp : p ≤ 128) :
    decodeValue (encodeValue v p) = (v, (p : Int)) := by
  unfold decodeValue prefixLenShift
  rw [encodeValue_land_low v p hv hp, encodeValue_shiftRight v p hv hp]
  simp

theorem isBlockRef_encodeValue (v p : Nat) (hv : v < 16777216) (hp : p ≤ 128) :
    isBlockRef (encodeValue v p) = false := by
  unfold isBlockRef blockRefMask
  have hC : (3221225472 : Nat) = 192 <<< 24 := by norm_num [Nat.shiftLeft_eq]
  rw [hC, land_shiftLeft_right, encodeValue_shiftRight v p hv hp]
  simp only [beq_eq_false_iff_ne, ne_eq]
  intro h
  have h192 : (p + 1) &&& 192 = 192 := by
    have := Nat.shiftLeft_eq ((p + 1) &&& 192) 24
    have h24 := Nat.shiftLeft_eq (192 : Nat) 24
    omega
  have hb : (p + 1) &&& 192 ≤ p + 1 := Nat.and_le_left
  omega

theorem encodeValue_ne_zero (v p : Nat) (hv : v < 16777216) (hp : p ≤ 128) :
    isInvalid (encodeValue v p) = false := by
  unfold isInvalid
  simp only [beq_eq_false_iff_ne, ne_eq]
  intro h
  have := encodeValue_shiftRight v p hv hp
  rw [h] at this
  simp [Nat.shiftRight_eq_div_pow] at this

theorem isBlockRef_encodeBlockRef (i : Nat) : isBlockRef (encodeBlockRef i) = true := by
  unfold isBlockRef encodeBlockRef
  rw [Nat.and_distrib_right]
  have h1 : blockRefMask &&& blockRefMask = blockRefMask := Nat.and_self _
  rw [h1, lor_land_absorb]
  simp

theorem decodeBlockRef_encodeBlockRef (i : Nat) (h : i < 1073741824) :
    decodeBlockRef (encodeBlockRef i) = i := by
  unfold decodeBlockRef encodeBlockRef blockRefMask blockIndexMask pow32
  rw [Nat.and_distrib_right]
  have h1 : (3221225472 : Nat) &&& 1073741823 = 0 := by decide
  have hm : (1073741823 : Nat) = 2 ^ 30 - 1 := by norm_num
  rw [h1, hm, Nat.and_pow_two_sub_one_eq_mod]
  have h2 : i % 4294967296 = i := Nat.mod_eq_of_lt (by omega)
  rw [h2, Nat.mod_eq_of_lt (by omega)]
  simp

theorem isBlockRef_zero : isBlockRef 0 = false := by decide


/-! ### Byte-buffer extraction lemmas -/

theorem getD_map_list (l : List Nat) (f : Nat → List Nat) (i : Nat) (h : i < l.length) :
    (l.map f).getD i [] = f (l.getD i 0) := by
  rw [List.getD_eq_getElem?_getD, List.getElem?_map, List.getD_eq_getElem?_getD,
    List.getElem?_eq_getElem h]
  simp

theorem flatten_length_fixed (K : Nat) :
    ∀ L : List (List Nat), (∀ x ∈ L, x.length = K) → L.flatten.length = L.length * K := by
  intro L
  induction L with
  | nil => intro _; simp
  | cons x rest ih =>
    intro hx
    have hxK : x.length = K := hx x (List.mem_cons_self x rest)
    have hrest : ∀ y ∈ rest, y.length = K := fun y hy => hx y (List.mem_cons_of_mem x hy)
    simp only [List.flatten_cons, List.length_append, List.length_cons, ih hrest, hxK]
    ring

theorem flatten_getD_fixed (K d : Nat) :
    ∀ (L : List (List Nat)) (i j : Nat), (∀ x ∈ L, x.length = K) → j < K →
      L.flatten.getD (i * K + j) d = (L.getD i []).getD j d := by
  intro L
  induction L with
  | nil => intro i j _ _; simp [List.getD]
  | cons x rest ih =>
    intro i j hx hj
    have hxK : x.length = K := hx x (List.mem_cons_self x rest)
    have hrest : ∀ y ∈ rest, y.length = K := fun y hy => hx y (List.mem_cons_of_mem x hy)
    cases i with
    | zero =>
      simp only [List.flatten_cons, Nat.zero_mul, Nat.zero_add]
      rw [List.getD_append _ _ _ _ (by omega)]
      rfl
    | succ i =>
      simp only [List.flatten_cons]
      have hpos : (i + 1) * K + j = x.length + (i * K + j) := by rw [hxK]; ring
      rw [hpos, List.getD_append_right _ _ _ _ (Nat.le_add_right _ _),
        Nat.add_sub_cancel_left]
      exact ih i j hrest hj

theorem readLE32_le32_flatten (ws : List Nat) (i : Nat) (h : i < ws.length) :
    readLE32 ((ws.map le32).flatten) (4 * i) = ws.getD i 0 % pow32 := by
  have hlens : ∀ x ∈ ws.map le32, x.length = 4 := by
    intro x hx
    rcases List.mem_map.mp hx with ⟨w, _, rfl⟩
    rfl
  have hget : (ws.map le32).getD i [] = le32 (ws.getD i 0) :=
    getD_map_list ws le32 i h
  have g : ∀ c : Nat, c < 4 →
      ((ws.map le32).flatten).getD (4 * i + c) 0 = (le32 (ws.getD i 0)).getD c 0 := by
    intro c hc
    have := flatten_getD_fixed 4 0 (ws.map le32) i c hlens hc
    rw [hget] at this
    rw [show 4 * i + c = i * 4 + c by ring]
    exact this
  unfold readLE32
  have g0 := g 0 (by omega)
  rw [Nat.add_zero] at g0
  rw [g0, g 1 (by omega), g 2 (by omega), g 3 (by omega)]
  show (ws.getD i 0) % 256 + 256 * (ws.getD i 0 / 256 % 256) +
      65536 * (ws.getD i 0 / 65536 % 256) + 16777216 * (ws.getD i 0 / 16777216 % 256) =
      ws.getD i 0 % pow32
  unfold pow32
  omega

theorem readLE32_append_right (pre l : List Nat) (k : Nat) :
    readLE32 (pre ++ l) (pre.length + k) = readLE32 l k := by
  have g : ∀ c : Nat, (pre ++ l).getD (pre.length + k + c) 0 = l.getD (k + c) 0 := by
    intro c
    rw [Nat.add_assoc, List.getD_append_right pre l 0 _ (Nat.le_add_right _ _),
      Nat.add_sub_cancel_left]
  unfold readLE32
  have g0 := g 0
  rw [Nat.add_zero] at g0
  rw [g0, g 1, g 2, g 3, Nat.add_zero]

theorem readLE32_append_left (pre l : List Nat) (k : Nat) (h : k + 4 ≤ pre.length) :
    readLE32 (pre ++ l) k = readLE32 pre k := by
  unfold readLE32
  rw [List.getD_append pre l 0 _ (by omega), List.getD_append pre l 0 _ (by omega),
    List.getD_append pre l 0 _ (by omega), List.getD_append pre l 0 _ (by omega)]

theorem readLE32_fields (fs l : List Nat) (j : Nat) (h : j < fs.length) :
    readLE32 ((fs.map le32).flatten ++ l) (4 * j) = fs.getD j 0 % pow32 := by
  have hlens : ∀ x ∈ fs.map le32, x.length = 4 := by
    intro x hx
    rcases List.mem_map.mp hx with ⟨w, _, rfl⟩
    rfl
  rw [readLE32_append_left _ _ _
    (by rw [flatten_length_fixed 4 _ hlens, List.length_map]; omega)]
  exact readLE32_le32_flatten fs j h


/-! ### Generic list access lemmas -/

theorem getD_set_self_p {α : Type} (l : List α) (i : Nat) (x d : α)
    (h : i < l.length) : (l.set i x).getD i d = x := by
  rw [List.getD_eq_getElem?_getD, List.getElem?_set_self h]
  rfl

theorem getD_set_ne_p {α : Type} (l : List α) (i j : Nat) (x d : α)
    (h : i ≠ j) : (l.set i x).getD j d = l.getD j d := by
  rw [List.getD_eq_getElem?_getD, List.getElem?_set_ne h, ← List.getD_eq_getElem?_getD]

theorem getD_replicate_lt (n a i d : Nat) (h : i < n) :
    (List.replicate n a).getD i d = a := by
  rw [List.getD_eq_getElem?_getD, List.getElem?_replicate]
  simp [h]

theorem getD_oob {α : Type} (l : List α) (i : Nat) (d : α) (h : l.length ≤ i) :
    l.getD i d = d := by
  rw [List.getD_eq_getElem?_getD, List.getElem?_eq_none h]
  rfl

/-! ### Block-store operations through the combined block list

`loadedBlocks m proto` (shared tier followed by dynamic tier) is the logical
block array of one family; the block-store operations are characterized
against it. -/

namespace LPM

theorem sharedOf_with_shared (m : LPM) (x : List (List LPMBlock)) (q : Nat) :
    ({ m with shared := x } : LPM).sharedOf q = x.getD q [] := rfl

theorem dynamicOf_with_shared (m : LPM) (x : List (List LPMBlock)) (q : Nat) :
    ({ m with shared := x } : LPM).dynamicOf q = m.dynamicOf q := rfl

theorem sharedOf_with_dynamic (m : LPM) (x : List (List LPMBlock)) (q : Nat) :
    ({ m with dynamic := x } : LPM).sharedOf q = m.sharedOf q := rfl

theorem dynamicOf_with_dynamic (m : LPM) (x : List (List LPMBlock)) (q : Nat) :
    ({ m with dynamic := x } : LPM).dynamicOf q = x.getD q [] := rfl

theorem getBlockRef_eq (m : LPM) (q b : Nat) :
    m.getBlockRef q b = (loadedBlocks m q).getD b [] := by
  unfold getBlockRef loadedBlocks
  by_cases h : b < (m.sharedOf q).length
  · rw [if_pos h, List.getD_append _ _ _ _ h]
  · rw [if_neg h, List.getD_append_right _ _ _ _ (by omega)]

theorem getValue_eq (m : LPM) (q b s : Nat) :
    m.getValue q b s = ((loadedBlocks m q).getD b []).getD s 0 := by
  unfold getValue loadedBlocks
  by_cases h : b < (m.sharedOf q).length
  · rw [if_pos h, List.getD_append _ _ _ _ h]
  · rw [if_neg h, List.getD_append_right _ _ _ _ (by omega)]

theorem totalBlocks_eq (m : LPM) (q : Nat) :
    m.totalBlocks q = (loadedBlocks m q).length := by
  unfold totalBlocks loadedBlocks
  rw [List.length_append]

theorem getValue_oob (m : LPM) (p b s : Nat) (hb : m.totalBlocks p ≤ b) :
    m.getValue p b s = 0 := by
  rw [getValue_eq, getD_oob (loadedBlocks m p) b [] (by rw [← totalBlocks_eq]; omega)]
  rfl

theorem setValue_eq_setBlock (m : LPM) (p b s v : Nat) :
    m.setValue p b s v = m.setBlock p b ((m.getBlockRef p b).set s v) := by
  unfold setValue setBlock getBlockRef
  by_cases h : b < (m.sharedOf p).length <;> simp [h]

theorem loadedBlocks_setBlock_other (m : LPM) (p b : Nat) (blk : LPMBlock)
    (q : Nat) (hq : q ≠ p) :
    loadedBlocks (m.setBlock p b blk) q = loadedBlocks m q := by
  unfold setBlock
  by_cases h : b < (m.sharedOf p).length
  · rw [if_pos h]
    unfold loadedBlocks
    rw [sharedOf_with_shared, dynamicOf_with_shared,
      getD_set_ne_p _ _ _ _ _ (fun h => hq h.symm)]
    rfl
  · rw [if_neg h]
    unfold loadedBlocks
    rw [sharedOf_with_dynamic, dynamicOf_with_dynamic,
      getD_set_ne_p _ _ _ _ _ (fun h => hq h.symm)]
    rfl

theorem loadedBlocks_setBlock_self (m : LPM) (p b : Nat) (blk : LPMBlock)
    (hT : wfTiers m) (hp : p < 2) :
    loadedBlocks (m.setBlock p b blk) p = (loadedBlocks m p).set b blk := by
  rcases hT with ⟨hsh, hdy⟩
  unfold setBlock
  by_cases h : b < (m.sharedOf p).length
  · rw [if_pos h]
    unfold loadedBlocks
    rw [sharedOf_with_shared, dynamicOf_with_shared,
      getD_set_self_p _ _ _ _ (by omega), List.set_append, if_pos h]
  · rw [if_neg h]
    unfold loadedBlocks
    rw [sharedOf_with_dynamic, dynamicOf_with_dynamic,
      getD_set_self_p _ _ _ _ (by omega), List.set_append, if_neg h]

theorem loadedBlocks_appendBlock_other (m : LPM) (p : Nat) (blk : LPMBlock)
    (q : Nat) (hq : q ≠ p) :
    loadedBlocks (m.appendBlock p blk) q = loadedBlocks m q := by
  unfold appendBlock loadedBlocks
  rw [sharedOf_with_dynamic, dynamicOf_with_dynamic,
    getD_set_ne_p _ _ _ _ _ (fun h => hq h.symm)]
  rfl

theorem loadedBlocks_appendBlock_self (m : LPM) (p : Nat) (blk : LPMBlock)
    (hT : wfTiers m) (hp : p < 2) :
    loadedBlocks (m.appendBlock p blk) p = loadedBlocks m p ++ [blk] := by
  rcases hT with ⟨hsh, hdy⟩
  unfold appendBlock loadedBlocks
  rw [sharedOf_with_dynamic, dynamicOf_with_dynamic,
    getD_set_self_p _ _ _ _ (by omega), List.append_assoc]

theorem setBlock_sharedValues (m : LPM) (p b : Nat) (blk : LPMBlock) :
    (m.setBlock p b blk).sharedValues = m.sharedValues := by
  unfold setBlock
  by_cases h : b < (m.sharedOf p).length <;> simp [h]

theorem setBlock_slotSize (m : LPM) (p b : Nat) (blk : LPMBlock) :
    (m.setBlock p b blk).sharedValuesSlotSize = m.sharedValuesSlotSize := by
  unfold setBlock
  by_cases h : b < (m.sharedOf p).length <;> simp [h]

theorem setBlock_valueCount (m : LPM) (p b : Nat) (blk : LPMBlock) :
    (m.setBlock p b blk).sharedValueCount = m.sharedValueCount := by
  unfold setBlock
  by_cases h : b < (m.sharedOf p).length <;> simp [h]

theorem setBlock_revValues (m : LPM) (p b : Nat) (blk : LPMBlock) :
    (m.setBlock p b blk).revValues = m.revValues := by
  unfold setBlock
  by_cases h : b < (m.sharedOf p).length <;> simp [h]

theorem setBlock_values (m : LPM) (p b : Nat) (blk : LPMBlock) :
    (m.setBlock p b blk).values = m.values := by
  unfold setBlock
  by_cases h : b < (m.sharedOf p).length <;> simp [h]

theorem appendBlock_sharedValues (m : LPM) (p : Nat) (blk : LPMBlock) :
    (m.appendBlock p blk).sharedValues = m.sharedValues := rfl

theorem appendBlock_slotSize (m : LPM) (p : Nat) (blk : LPMBlock) :
    (m.appendBlock p blk).sharedValuesSlotSize = m.sharedValuesSlotSize := rfl

theorem appendBlock_valueCount (m : LPM) (p : Nat) (blk : LPMBlock) :
    (m.appendBlock p blk).sharedValueCount = m.sharedValueCount := rfl

theorem appendBlock_revValues (m : LPM) (p : Nat) (blk : LPMBlock) :
    (m.appendBlock p blk).revValues = m.revValues := rfl

theorem appendBlock_values (m : LPM) (p : Nat) (blk : LPMBlock) :
    (m.appendBlock p blk).values = m.values := rfl

theorem wfTiers_setBlock (m : LPM) (p b : Nat) (blk : LPMBlock) (hT : wfTiers m) :
    wfTiers (m.setBlock p b blk) := by
  rcases hT with ⟨hsh, hdy⟩
  unfold setBlock wfTiers
  by_cases h : b < (m.sharedOf p).length
  · rw [if_pos h]
    exact ⟨by simpa using hsh, hdy⟩
  · rw [if_neg h]
    exact ⟨hsh, by simpa using hdy⟩

theorem wfTiers_appendBlock (m : LPM) (p : Nat) (blk : LPMBlock) (hT : wfTiers m) :
    wfTiers (m.appendBlock p blk) := by
  rcases hT with ⟨hsh, hdy⟩
  unfold appendBlock wfTiers
  exact ⟨hsh, by simpa using hdy⟩

end LPM


/-! ### Propagation over an all-empty slot range -/

namespace LPM

theorem propagateStep_invalid (m : LPM) (p bI pl nv x : Nat)
    (h0 : m.getValue p bI x = 0) :
    propagateStep p bI pl nv m x = m.setValue p bI x nv := by
  unfold propagateStep
  rw [h0]
  norm_num [isBlockRef_zero, isInvalid]

theorem loadedBlocks_setValue_self (m : LPM) (p b s v : Nat)
    (hT : wfTiers m) (hp : p < 2) :
    loadedBlocks (m.setValue p b s v) p =
      (loadedBlocks m p).set b (((loadedBlocks m p).getD b []).set s v) := by
  rw [setValue_eq_setBlock, loadedBlocks_setBlock_self m p b _ hT hp, getBlockRef_eq]

theorem loadedBlocks_setValue_other (m : LPM) (p b s v q : Nat) (hq : q ≠ p) :
    loadedBlocks (m.setValue p b s v) q = loadedBlocks m q := by
  rw [setValue_eq_setBlock, loadedBlocks_setBlock_other m p b _ q hq]

theorem setValue_sharedValues (m : LPM) (p b s v : Nat) :
    (m.setValue p b s v).sharedValues = m.sharedValues := by
  rw [setValue_eq_setBlock, setBlock_sharedValues]

theorem setValue_slotSize (m : LPM) (p b s v : Nat) :
    (m.setValue p b s v).sharedValuesSlotSize = m.sharedValuesSlotSize := by
  rw [setValue_eq_setBlock, setBlock_slotSize]

theorem setValue_valueCount (m : LPM) (p b s v : Nat) :
    (m.setValue p b s v).sharedValueCount = m.sharedValueCount := by
  rw [setValue_eq_setBlock, setBlock_valueCount]

theorem setValue_revValues (m : LPM) (p b s v : Nat) :
    (m.setValue p b s v).revValues = m.revValues := by
  rw [setValue_eq_setBlock, setBlock_revValues]

theorem setValue_values (m : LPM) (p b s v : Nat) :
    (m.setValue p b s v).values = m.values := by
  rw [setValue_eq_setBlock, setBlock_values]

theorem wfTiers_setValue (m : LPM) (p b s v : Nat) (hT : wfTiers m) :
    wfTiers (m.setValue p b s v) := by
  rw [setValue_eq_setBlock]
  exact wfTiers_setBlock _ _ _ _ hT

theorem propagateValue_zero (pl vI p bI : Nat) :
    ∀ (n a : Nat) (m : LPM),
    wfTiers m → p < 2 → bI < m.totalBlocks p →
    ((loadedBlocks m p).getD bI []).length = blockSize →
    a + n ≤ blockSize →
    (∀ j, a ≤ j → j < a + n → m.getValue p bI j = 0) →
    (let m' := (List.range' a n).foldl
      (propagateStep p bI pl (encodeValue vI pl)) m
    wfTiers m' ∧
    eqValueFields m' m ∧
    (∀ q, q ≠ p → loadedBlocks m' q = loadedBlocks m q) ∧
    (loadedBlocks m' p).length = (loadedBlocks m p).length ∧
    (∀ b, b ≠ bI → (loadedBlocks m' p).getD b [] = (loadedBlocks m p).getD b []) ∧
    ((loadedBlocks m' p).getD bI []).length = blockSize ∧
    (∀ j, j < blockSize →
      ((loadedBlocks m' p).getD bI []).getD j 0 =
        if a ≤ j ∧ j < a + n then encodeValue vI pl else m.getValue p bI j)) := by
  intro n
  induction n with
  | zero =>
    intro a m hT hp hbI hblen _ _
    refine ⟨hT, ⟨rfl, rfl, rfl, rfl⟩, fun q _ => rfl, rfl, fun b _ => rfl, hblen, ?_⟩
    intro j _
    rw [if_neg (by omega), getValue_eq]
    rfl
  | succ n ih =>
    intro a m hT hp hbI hblen hle hzero
    rw [List.range'_succ, List.foldl_cons,
      propagateStep_invalid m p bI pl _ a (hzero a (le_refl a) (by omega))]
    have hbIlen : bI < (loadedBlocks m p).length := by rw [← totalBlocks_eq]; omega
    have hLd1 : loadedBlocks (m.setValue p bI a (encodeValue vI pl)) p =
        (loadedBlocks m p).set bI
          (((loadedBlocks m p).getD bI []).set a (encodeValue vI pl)) :=
      loadedBlocks_setValue_self m p bI a _ hT hp
    have hblk1 : (loadedBlocks (m.setValue p bI a (encodeValue vI pl)) p).getD bI [] =
        ((loadedBlocks m p).getD bI []).set a (encodeValue vI pl) := by
      rw [hLd1, getD_set_self_p _ _ _ _ (by omega)]
    have hT1 : wfTiers (m.setValue p bI a (encodeValue vI pl)) :=
      wfTiers_setValue m p bI a _ hT
    have htot1 : (m.setValue p bI a (encodeValue vI pl)).totalBlocks p =
        m.totalBlocks p := by
      rw [totalBlocks_eq, totalBlocks_eq, hLd1, List.length_set]
    have hgv1 : ∀ j, j < blockSize →
        (m.setValue p bI a (encodeValue vI pl)).getValue p bI j =
          if j = a then encodeValue vI pl else m.getValue p bI j := by
      intro j hj
      rw [getValue_eq, hblk1]
      by_cases hja : j = a
      · subst hja
        rw [if_pos rfl, getD_set_self_p _ _ _ _ (by omega)]
      · rw [if_neg hja, getD_set_ne_p _ _ _ _ _ (fun h => hja h.symm), getValue_eq]
    obtain ⟨ihT, ihVf, ihOther, ihLen, ihBlkOther, ihBlkLen, ihSlots⟩ :=
      ih (a + 1) (m.setValue p bI a (encodeValue vI pl)) hT1 hp
        (by omega)
        (by rw [hblk1, List.length_set]; exact hblen)
        (by omega)
        (by
          intro j hj1 hj2
          rw [hgv1 j (by omega), if_neg (by omega)]
          exact hzero j (by omega) (by omega))
    refine ⟨ihT, ?_, ?_, ?_, ?_, ihBlkLen, ?_⟩
    · obtain ⟨e1, e2, e3, e4⟩ := ihVf
      refine ⟨?_, ?_, ?_, ?_⟩
      · rw [e1, setValue_sharedValues]
      · rw [e2, setValue_slotSize]
      · rw [e3, setValue_valueCount]
      · rw [e4, setValue_revValues]
    · intro q hq
      rw [ihOther q hq, loadedBlocks_setValue_other m p bI a _ q hq]
    · rw [ihLen, hLd1, List.length_set]
    · intro b hb
      rw [ihBlkOther b hb, hLd1, getD_set_ne_p _ _ _ _ _ (fun h => hb h.symm)]
    · intro j hj
      rw [ihSlots j hj]
      by_cases hrange : a + 1 ≤ j ∧ j < a + 1 + n
      · rw [if_pos hrange, if_pos (by omega)]
      · rw [if_neg hrange, hgv1 j hj]
        by_cases hja : j = a
        · subst hja
          rw [if_pos rfl, if_pos (by omega)]
        · rw [if_neg hja, if_neg (by omega)]

end LPM


/-! ### The insert walk along a freshly created chain of empty blocks -/

theorem land_lor_absorb (a b : Nat) : a &&& (a ||| b) = a := by
  apply Nat.eq_of_testBit_eq
  intro i
  simp only [Nat.testBit_and, Nat.testBit_or]
  cases a.testBit i <;> simp

theorem le_lor_left (a b : Nat) : a ≤ a ||| b := by
  conv_lhs => rw [← land_lor_absorb a b]
  exact Nat.and_le_right

theorem zeroBlock_getD (j : Nat) : zeroBlock.getD j 0 = 0 := by
  unfold zeroBlock
  by_cases h : j < blockSize
  · exact getD_replicate_lt _ _ _ _ h
  · exact getD_oob _ _ _ (by simpa using Nat.le_of_not_lt h)

theorem zeroBlock_length : zeroBlock.length = blockSize := List.length_replicate _ _

theorem blockWithValue_zero : blockWithValue 0 = zeroBlock := rfl

theorem maskByte_terminal (P idx b : Nat) (hb : b < 256) (hP : P ≤ (idx + 1) * 8) :
    b &&& ((0xff <<< ((idx + 1) * 8 - P)) % 256) = maskByte P idx b := by
  unfold maskByte
  by_cases h1 : (idx + 1) * 8 ≤ P
  · rw [if_pos h1]
    have : (idx + 1) * 8 - P = 0 := by omega
    rw [this]
    show b &&& (255 % 256) = b
    norm_num
    have : (255 : Nat) = 2 ^ 8 - 1 := by norm_num
    rw [this, Nat.and_pow_two_sub_one_eq_mod, Nat.mod_eq_of_lt hb]
  · rw [if_neg h1]
    by_cases h2 : P ≤ idx * 8
    · rw [if_pos h2]
      have ht : (idx + 1) * 8 - P = ((idx + 1) * 8 - P - 8) + 8 := by omega
      rw [ht, Nat.shiftLeft_eq, pow_add]
      have : (255 : Nat) * (2 ^ ((idx + 1) * 8 - P - 8) * 2 ^ 8) =
          255 * 2 ^ ((idx + 1) * 8 - P - 8) * 256 := by ring
      rw [this, Nat.mul_mod_left, Nat.and_zero]
    · rw [if_neg h2]

namespace LPM

theorem insertLoop_zero_chain (p vI P : Nat) :
    ∀ (bytes : List Nat) (idx : Nat) (bI : Nat) (m : LPM),
    wfTiers m → p < 2 →
    m.totalBlocks p = bI + 1 →
    (loadedBlocks m p).getD bI [] = zeroBlock →
    (∀ x ∈ bytes, x < 256) →
    P ≤ 8 * (idx + bytes.length) →
    m.totalBlocks p + bytes.length < 2 ^ 30 →
    vI < 2 ^ 24 → P ≤ 128 →
    bytes ≠ [] →
    (let m' := insertLoop p vI P bytes idx bI m
    wfTiers m' ∧ eqValueFields m' m ∧
    (∀ q, q ≠ p → loadedBlocks m' q = loadedBlocks m q) ∧
    (∀ b, b < bI → (loadedBlocks m' p).getD b [] = (loadedBlocks m p).getD b []) ∧
    m'.lookupLoop p (baseFrom P idx bytes) bI = m'.getValueByIndex vI) := by
  intro bytes
  induction bytes with
  | nil => intro idx bI m _ _ _ _ _ _ _ _ _ hne; exact absurd rfl hne
  | cons b rest ih =>
    intro idx bI m hT hp htot hblk hbytes hP hcap hvI hPle _
    have hb : b < 256 := hbytes b (List.mem_cons_self _ _)
    have hbIlen : bI < (loadedBlocks m p).length := by
      rw [← totalBlocks_eq]; omega
    have hlen_eq : (loadedBlocks m p).length = bI + 1 := by
      rw [← totalBlocks_eq, htot]
    by_cases hterm : P ≤ (idx + 1) * 8
    · -- terminal byte: propagate into the current all-zero block
      rw [show insertLoop p vI P (b :: rest) idx bI m =
          m.propagateValue p bI vI P (b &&& ((0xff <<< ((idx + 1) * 8 - P)) % 256))
            ((b &&& ((0xff <<< ((idx + 1) * 8 - P)) % 256)) |||
              (0xff ^^^ (0xff <<< ((idx + 1) * 8 - P)) % 256)) from by
        simp only [insertLoop]
        rw [if_pos hterm]]
      set start := b &&& ((0xff <<< ((idx + 1) * 8 - P)) % 256) with hstart
      set endIdx := start ||| (0xff ^^^ (0xff <<< ((idx + 1) * 8 - P)) % 256) with hend
      have hmask_lt : (0xff <<< ((idx + 1) * 8 - P)) % 256 < 256 := Nat.mod_lt _ (by norm_num)
      have hstart_lt : start < 256 := by
        rw [hstart]
        exact lt_of_le_of_lt Nat.and_le_left hb
      have hxor_lt : 0xff ^^^ (0xff <<< ((idx + 1) * 8 - P)) % 256 < 256 := by
        have : (256 : Nat) = 2 ^ 8 := by norm_num
        rw [this] at hmask_lt ⊢
        exact Nat.xor_lt_two_pow (by norm_num) hmask_lt
      have hend_lt : endIdx < 256 := by
        rw [hend]
        have : (256 : Nat) = 2 ^ 8 := by norm_num
        rw [this] at hstart_lt hxor_lt ⊢
        exact Nat.or_lt_two_pow hstart_lt hxor_lt
      have hse : start ≤ endIdx := le_lor_left _ _
      have hzero : ∀ j, start ≤ j → j < start + (endIdx + 1 - start) →
          m.getValue p bI j = 0 := by
        intro j _ _
        rw [getValue_eq, hblk, zeroBlock_getD]
      obtain ⟨cT, cVf, cOther, _, cBlkOther, cBlkLen, cSlots⟩ :=
        propagateValue_zero P vI p bI (endIdx + 1 - start) start m hT hp (by omega)
          (by rw [hblk, zeroBlock_length]) (by unfold blockSize; omega) hzero
      unfold propagateValue
      refine ⟨cT, cVf, cOther, ?_, ?_⟩
      · intro b' hb'
        exact cBlkOther b' (by omega)
      · show lookupLoop _ p (baseFrom P idx (b :: rest)) bI = _
        unfold baseFrom
        unfold lookupLoop
        rw [show maskByte P idx b = start from (maskByte_terminal P idx b hb hterm).symm]
        have hslot : (List.foldl (propagateStep p bI P (encodeValue vI P)) m
            (List.range' start (endIdx + 1 - start))).getValue p bI start =
            encodeValue vI P := by
          rw [getValue_eq]
          rw [cSlots start (by unfold blockSize; omega), if_pos (by omega)]
        rw [hslot]
        simp only [isBlockRef_encodeValue vI P hvI hPle,
          encodeValue_ne_zero vI P hvI hPle, Bool.false_eq_true, if_false,
          decodeValue_encodeValue vI P hvI hPle]
    · -- intermediate byte: create a child block and recurse
      have hrest : rest ≠ [] := by
        intro h
        rw [h] at hP
        simp at hP
        omega
      have hcur : m.getValue p bI b = 0 := by
        rw [getValue_eq, hblk, zeroBlock_getD]
      rw [show insertLoop p vI P (b :: rest) idx bI m =
          insertLoop p vI P rest (idx + 1) (m.totalBlocks p)
            ((m.setValue p bI b (encodeBlockRef (m.totalBlocks p))).appendBlock p
              zeroBlock) from by
        simp only [insertLoop]
        rw [if_neg hterm, hcur]
        norm_num [isBlockRef_zero, blockWithValue_zero]]
      set m1 := m.setValue p bI b (encodeBlockRef (m.totalBlocks p)) with hm1
      set m2 := m1.appendBlock p zeroBlock with hm2
      have hT1 : wfTiers m1 := wfTiers_setValue _ _ _ _ _ hT
      have hT2 : wfTiers m2 := wfTiers_appendBlock _ _ _ hT1
      have hLd1 : loadedBlocks m1 p =
          (loadedBlocks m p).set bI (zeroBlock.set b (encodeBlockRef (bI + 1))) := by
        rw [hm1, loadedBlocks_setValue_self m p bI b _ hT hp, hblk, htot]
      have hLd2 : loadedBlocks m2 p =
          (loadedBlocks m p).set bI (zeroBlock.set b (encodeBlockRef (bI + 1))) ++
            [zeroBlock] := by
        rw [hm2, loadedBlocks_appendBlock_self m1 p _ hT1 hp, hLd1]
      have htot2 : m2.totalBlocks p = bI + 2 := by
        rw [totalBlocks_eq, hLd2, List.length_append, List.length_set]
        simp
        omega
      have hblk2 : (loadedBlocks m2 p).getD (bI + 1) [] = zeroBlock := by
        rw [hLd2, List.getD_append_right _ _ _ _ (by rw [List.length_set]; omega),
          List.length_set]
        rw [show bI + 1 - (loadedBlocks m p).length = 0 from by omega]
        rfl
      obtain ⟨iT, iVf, iOther, iFrame, iLook⟩ :=
        ih (idx + 1) (bI + 1) m2 hT2 hp (by omega) hblk2
          (fun x hx => hbytes x (List.mem_cons_of_mem _ hx))
          (by have hl : (b :: rest).length = rest.length + 1 := List.length_cons _ _; omega)
          (by have hl : (b :: rest).length = rest.length + 1 := List.length_cons _ _; omega)
          hvI hPle hrest
      rw [htot]
      refine ⟨iT, ?_, ?_, ?_, ?_⟩
      · obtain ⟨e1, e2, e3, e4⟩ := iVf
        refine ⟨?_, ?_, ?_, ?_⟩
        · rw [e1, hm2, appendBlock_sharedValues, hm1, setValue_sharedValues]
        · rw [e2, hm2, appendBlock_slotSize, hm1, setValue_slotSize]
        · rw [e3, hm2, appendBlock_valueCount, hm1, setValue_valueCount]
        · rw [e4, hm2, appendBlock_revValues, hm1, setValue_revValues]
      · intro q hq
        rw [iOther q hq, hm2, loadedBlocks_appendBlock_other _ _ _ _ hq, hm1,
          loadedBlocks_setValue_other _ _ _ _ _ _ hq]
      · intro b' hb'
        rw [iFrame b' (by omega), hLd2,
          List.getD_append _ _ _ _ (by rw [List.length_set]; omega),
          getD_set_ne_p _ _ _ _ _ (by omega)]
      · show lookupLoop _ p (baseFrom P idx (b :: rest)) bI = _
        unfold baseFrom
        unfold lookupLoop
        have hmb : maskByte P idx b = b := by
          unfold maskByte
          rw [if_pos (by omega)]
        rw [hmb]
        have hslot : (insertLoop p vI P rest (idx + 1) (bI + 1) m2).getValue p bI b =
            encodeBlockRef (bI + 1) := by
          rw [getValue_eq, iFrame bI (by omega), hLd2,
            List.getD_append _ _ _ _ (by rw [List.length_set]; omega),
            getD_set_self_p _ _ _ _ (by omega),
            getD_set_self_p _ _ _ _ (by rw [zeroBlock_length]; unfold blockSize; omega)]
        have hd : decodeBlockRef (encodeBlockRef (bI + 1)) = bI + 1 :=
          decodeBlockRef_encodeBlockRef _ (by have hl : (b :: rest).length = rest.length + 1 := List.length_cons _ _; omega)
        rw [hslot]
        simp only [isBlockRef_encodeBlockRef, if_true, hd]
        exact iLook

end LPM


/-! ### Lookup after the first insert into an empty trie -/

theorem baseFrom_length (P : Nat) : ∀ (i : Nat) (l : List Nat),
    (baseFrom P i l).length = l.length := by
  intro i l
  induction l generalizing i with
  | nil => rfl
  | cons b rest ih => simp [baseFrom, ih]

namespace LPM

theorem getValueByIndex_congr (m1 m2 : LPM) (h : eqValueFields m1 m2) (i : Nat) :
    m1.getValueByIndex i = m2.getValueByIndex i := by
  obtain ⟨e1, e2, e3, e4⟩ := h
  unfold getValueByIndex
  rw [e1, e2, e3, e4]

end LPM



/-! ### Frame lemmas: an insert in one family leaves the other family's
blocks and the existing value table untouched -/

namespace LPM

theorem propagateStep_other (p bI pl nv : Nat) (m : LPM) (x : Nat) (hT : wfTiers m) :
    wfTiers (propagateStep p bI pl nv m x) ∧
    (∀ q, q ≠ p → loadedBlocks (propagateStep p bI pl nv m x) q = loadedBlocks m q) ∧
    (propagateStep p bI pl nv m x).sharedValues = m.sharedValues ∧
    (propagateStep p bI pl nv m x).sharedValuesSlotSize = m.sharedValuesSlotSize ∧
    (propagateStep p bI pl nv m x).sharedValueCount = m.sharedValueCount ∧
    (propagateStep p bI pl nv m x).revValues = m.revValues := by
  unfold propagateStep
  by_cases h1 : isBlockRef (m.getValue p bI x)
  · simp only [h1, if_true]
    exact ⟨wfTiers_setBlock _ _ _ _ hT,
      fun q hq => loadedBlocks_setBlock_other _ _ _ _ _ hq,
      setBlock_sharedValues _ _ _ _, setBlock_slotSize _ _ _ _,
      setBlock_valueCount _ _ _ _, setBlock_revValues _ _ _ _⟩
  · simp only [h1, Bool.false_eq_true, if_false]
    by_cases h2 : isInvalid (m.getValue p bI x)
    · simp only [h2, if_true]
      exact ⟨wfTiers_setValue _ _ _ _ _ hT,
        fun q hq => loadedBlocks_setValue_other _ _ _ _ _ _ hq,
        setValue_sharedValues _ _ _ _ _, setValue_slotSize _ _ _ _ _,
        setValue_valueCount _ _ _ _ _, setValue_revValues _ _ _ _ _⟩
    · simp only [h2, Bool.false_eq_true, if_false]
      by_cases h3 : (pl : Int) ≥ (decodeValue (m.getValue p bI x)).2
      · simp only [h3, if_true]
        exact ⟨wfTiers_setValue _ _ _ _ _ hT,
          fun q hq => loadedBlocks_setValue_other _ _ _ _ _ _ hq,
          setValue_sharedValues _ _ _ _ _, setValue_slotSize _ _ _ _ _,
          setValue_valueCount _ _ _ _ _, setValue_revValues _ _ _ _ _⟩
      · rw [if_neg h3]
        exact ⟨hT, fun q _ => rfl, rfl, rfl, rfl, rfl⟩

theorem foldl_propagateStep_other (p bI pl nv : Nat) :
    ∀ (l : List Nat) (m : LPM), wfTiers m →
    (let m' := l.foldl (propagateStep p bI pl nv) m
    wfTiers m' ∧
    (∀ q, q ≠ p → loadedBlocks m' q = loadedBlocks m q) ∧
    m'.sharedValues = m.sharedValues ∧
    m'.sharedValuesSlotSize = m.sharedValuesSlotSize ∧
    m'.sharedValueCount = m.sharedValueCount ∧
    m'.revValues = m.revValues) := by
  intro l
  induction l with
  | nil => intro m hT; exact ⟨hT, fun q _ => rfl, rfl, rfl, rfl, rfl⟩
  | cons x rest ih =>
    intro m hT
    obtain ⟨sT, sOther, s1, s2, s3, s4⟩ := propagateStep_other p bI pl nv m x hT
    obtain ⟨iT, iOther, i1, i2, i3, i4⟩ := ih (propagateStep p bI pl nv m x) sT
    rw [List.foldl_cons]
    exact ⟨iT, fun q hq => (iOther q hq).trans (sOther q hq),
      i1.trans s1, i2.trans s2, i3.trans s3, i4.trans s4⟩

theorem propagateValue_other (m : LPM) (p bI vI pl a e : Nat) (hT : wfTiers m) :
    (let m' := m.propagateValue p bI vI pl a e
    wfTiers m' ∧
    (∀ q, q ≠ p → loadedBlocks m' q = loadedBlocks m q) ∧
    m'.sharedValues = m.sharedValues ∧
    m'.sharedValuesSlotSize = m.sharedValuesSlotSize ∧
    m'.sharedValueCount = m.sharedValueCount ∧
    m'.revValues = m.revValues) :=
  foldl_propagateStep_other p bI pl (encodeValue vI pl) (List.range' a (e + 1 - a)) m hT

theorem insertLoop_other (p vI P : Nat) :
    ∀ (bytes : List Nat) (idx bI : Nat) (m : LPM), wfTiers m →
    (let m' := insertLoop p vI P bytes idx bI m
    wfTiers m' ∧
    (∀ q, q ≠ p → loadedBlocks m' q = loadedBlocks m q) ∧
    m'.sharedValues = m.sharedValues ∧
    m'.sharedValuesSlotSize = m.sharedValuesSlotSize ∧
    m'.sharedValueCount = m.sharedValueCount ∧
    m'.revValues = m.revValues) := by
  intro bytes
  induction bytes with
  | nil => intro idx bI m hT; exact ⟨hT, fun q _ => rfl, rfl, rfl, rfl, rfl⟩
  | cons b rest ih =>
    intro idx bI m hT
    by_cases hterm : P ≤ (idx + 1) * 8
    · rw [show insertLoop p vI P (b :: rest) idx bI m =
          m.propagateValue p bI vI P (b &&& (0xff <<< ((idx + 1) * 8 - P) % 256))
            ((b &&& (0xff <<< ((idx + 1) * 8 - P) % 256)) |||
              (0xff ^^^ (0xff <<< ((idx + 1) * 8 - P)) % 256)) from by
        simp only [insertLoop]
        rw [if_pos hterm]]
      exact propagateValue_other m p bI vI P _ _ hT
    · by_cases href : isBlockRef (m.getValue p bI b)
      · rw [show insertLoop p vI P (b :: rest) idx bI m =
            insertLoop p vI P rest (idx + 1) (decodeBlockRef (m.getValue p bI b)) m from by
          simp only [insertLoop]
          rw [if_neg hterm]
          simp only [href, if_true]]
        exact ih (idx + 1) _ m hT
      · rw [show insertLoop p vI P (b :: rest) idx bI m =
            insertLoop p vI P rest (idx + 1) (m.totalBlocks p)
              ((m.setValue p bI b (encodeBlockRef (m.totalBlocks p))).appendBlock p
                (blockWithValue (m.getValue p bI b))) from by
          simp only [insertLoop]
          rw [if_neg hterm]
          simp only [href, Bool.false_eq_true, if_false]]
        have hT1 : wfTiers (m.setValue p bI b (encodeBlockRef (m.totalBlocks p))) :=
          wfTiers_setValue _ _ _ _ _ hT
        have hT2 : wfTiers ((m.setValue p bI b (encodeBlockRef (m.totalBlocks p))).appendBlock
            p (blockWithValue (m.getValue p bI b))) :=
          wfTiers_appendBlock _ _ _ hT1
        obtain ⟨iT, iOther, i1, i2, i3, i4⟩ := ih (idx + 1) (m.totalBlocks p) _ hT2
        refine ⟨iT, ?_, ?_, ?_, ?_, ?_⟩
        · intro q hq
          rw [iOther q hq, loadedBlocks_appendBlock_other _ _ _ _ hq,
            loadedBlocks_setValue_other _ _ _ _ _ _ hq]
        · rw [i1, appendBlock_sharedValues, setValue_sharedValues]
        · rw [i2, appendBlock_slotSize, setValue_slotSize]
        · rw [i3, appendBlock_valueCount, setValue_valueCount]
        · rw [i4, appendBlock_revValues, setValue_revValues]

theorem addValue_state (m : LPM) (v : List Nat) :
    (m.addValue v).1.shared = m.shared ∧
    (m.addValue v).1.dynamic = m.dynamic ∧
    (m.addValue v).1.sharedValues = m.sharedValues ∧
    (m.addValue v).1.sharedValuesSlotSize = m.sharedValuesSlotSize ∧
    (m.addValue v).1.sharedValueCount = m.sharedValueCount ∧
    ∃ t, (m.addValue v).1.revValues = m.revValues ++ t := by
  unfold addValue
  cases assocIdx m.values v with
  | none => exact ⟨rfl, rfl, rfl, rfl, rfl, [v], rfl⟩
  | some i => exact ⟨rfl, rfl, rfl, rfl, rfl, [], (List.append_nil _).symm⟩

theorem lookupLoop_frame (m m' : LPM) (q : Nat)
    (hblocks : loadedBlocks m' q = loadedBlocks m q)
    (hsv : m'.sharedValues = m.sharedValues)
    (hss : m'.sharedValuesSlotSize = m.sharedValuesSlotSize)
    (hsc : m'.sharedValueCount = m.sharedValueCount)
    (hrev : ∃ t, m'.revValues = m.revValues ++ t)
    (hwf : wfValueRefs m q) :
    ∀ (bytes : List Nat) (bI : Nat), (∀ x ∈ bytes, x < 256) →
      m'.lookupLoop q bytes bI = m.lookupLoop q bytes bI := by
  intro bytes
  induction bytes with
  | nil => intro bI _; rfl
  | cons x rest ih =>
    intro bI hx
    have hxlt : x < 256 := hx x (List.mem_cons_self _ _)
    have hval : m'.getValue q bI x = m.getValue q bI x := by
      rw [getValue_eq, getValue_eq, hblocks]
    unfold lookupLoop
    rw [hval]
    by_cases h1 : isBlockRef (m.getValue q bI x)
    · simp only [h1, if_true]
      exact ih _ (fun y hy => hx y (List.mem_cons_of_mem _ hy))
    · simp only [h1, Bool.false_eq_true, if_false]
      by_cases h2 : isInvalid (m.getValue q bI x)
      · simp only [h2, if_true]
      · simp only [h2, Bool.false_eq_true, if_false]
        -- a terminal slot: its value index is in range by well-formedness
        obtain ⟨t, ht⟩ := hrev
        have hidx : (decodeValue (m.getValue q bI x)).1 <
            m.sharedValueCount + m.revValues.length := by
          by_cases hbI : bI < m.totalBlocks q
          · exact hwf bI hbI x (by unfold blockSize; omega) (by simpa using h1)
              (by simpa [isInvalid] using h2)
          · exfalso
            rw [getValue_oob m q bI x (by omega)] at h2
            simp [isInvalid] at h2
        unfold getValueByIndex
        rw [hsv, hss, hsc, ht]
        by_cases hsh : (decodeValue (m.getValue q bI x)).1 < m.sharedValueCount
        · simp only [hsh, if_true]
        · simp only [hsh, if_false]
          have hlt : (decodeValue (m.getValue q bI x)).1 - m.sharedValueCount <
              m.revValues.length := by omega
          rw [if_neg (by rw [List.length_append]; omega), if_neg (by omega),
            List.getD_append _ _ _ _ hlt]

end LPM


namespace LPM

theorem loadedBlocks_of_eq (m1 m : LPM) (hs : m1.shared = m.shared)
    (hd : m1.dynamic = m.dynamic) (q : Nat) : loadedBlocks m1 q = loadedBlocks m q := by
  unfold loadedBlocks sharedOf dynamicOf
  rw [hs, hd]

theorem wfTiers_of_eq (m1 m : LPM) (hs : m1.shared = m.shared)
    (hd : m1.dynamic = m.dynamic) (hT : wfTiers m) : wfTiers m1 := by
  unfold wfTiers at *
  rw [hs, hd]
  exact hT

/-- A single insert in one family leaves every block of the other family,
the shared value tier, and the existing dynamic values untouched; the dynamic
value table is at most extended. -/
theorem Insert_frame (m : LPM) (net : Cidr) (v : List Nat) (hT : wfTiers m) :
    (let p := if net.addr.length = 16 then v6LPM else v4LPM
    let m' := m.Insert net v
    wfTiers m' ∧
    (∀ q, q ≠ p → loadedBlocks m' q = loadedBlocks m q) ∧
    m'.sharedValues = m.sharedValues ∧
    m'.sharedValuesSlotSize = m.sharedValuesSlotSize ∧
    m'.sharedValueCount = m.sharedValueCount ∧
    ∃ t, m'.revValues = m.revValues ++ t) := by
  intro p
  rcases hAdd : m.addValue v with ⟨m1, vI⟩
  have hIns : m.Insert net v = insertLoop p vI net.bits net.addr 0 0 m1 := by
    unfold Insert
    rw [hAdd]
  obtain ⟨a1, a2, a3, a4, a5, t, a6⟩ := addValue_state m v
  rw [hAdd] at a1 a2 a3 a4 a5 a6
  have hT1 : wfTiers m1 := wfTiers_of_eq m1 m a1 a2 hT
  obtain ⟨iT, iOther, i1, i2, i3, i4⟩ :=
    insertLoop_other p vI net.bits net.addr 0 0 m1 hT1
  rw [hIns]
  refine ⟨iT, ?_, ?_, ?_, ?_, ?_⟩
  · intro q hq
    rw [iOther q hq, loadedBlocks_of_eq m1 m a1 a2 q]
  · rw [i1, a3]
  · rw [i2, a4]
  · rw [i3, a5]
  · exact ⟨t, by rw [i4, a6]⟩

/-- Lookup in the family an insert did not touch is unchanged, provided the
trie's terminal slots of that family reference existing values. -/
theorem Lookup_after_other_Insert (m : LPM) (net : Cidr) (v : List Nat)
    (a : List Nat) (hT : wfTiers m)
    (hdiff : (a.length = 16) ≠ (net.addr.length = 16))
    (hb : ∀ x ∈ a, x < 256)
    (hwf : wfValueRefs m (if a.length = 16 then v6LPM else v4LPM)) :
    (m.Insert net v).Lookup a = m.Lookup a := by
  obtain ⟨iT, iOther, i1, i2, i3, i4⟩ := Insert_frame m net v hT
  have hq : (if a.length = 16 then v6LPM else v4LPM) ≠
      (if net.addr.length = 16 then v6LPM else v4LPM) := by
    by_cases h1 : a.length = 16 <;> by_cases h2 : net.addr.length = 16 <;>
      simp [h1, h2, v4LPM, v6LPM] at hdiff ⊢
  unfold Lookup
  exact lookupLoop_frame m (m.Insert net v) _ (iOther _ hq) i1 i2 i3 i4 hwf a 0 hb

end LPM


/-! ### Further list utilities for the pack and load round trip -/

theorem getD_drop_p {α : Type} (l : List α) (a j : Nat) (d : α) :
    (l.drop a).getD j d = l.getD (a + j) d := by
  rw [List.getD_eq_getElem?_getD, List.getElem?_drop, ← List.getD_eq_getElem?_getD]

theorem getD_take_lt {α : Type} (l : List α) (k j : Nat) (d : α) (h : j < k) :
    (l.take k).getD j d = l.getD j d := by
  rw [List.getD_eq_getElem?_getD, List.getElem?_take_of_lt h, ← List.getD_eq_getElem?_getD]

theorem getD_range (n i : Nat) (h : i < n) : (List.range n).getD i 0 = i := by
  rw [List.getD_eq_getElem?_getD, List.getElem?_range h]
  rfl

theorem getD_mem {α : Type} (l : List α) (n : Nat) (d : α) (h : n < l.length) :
    l.getD n d ∈ l := by
  rw [List.getD_eq_getElem?_getD, List.getElem?_eq_getElem h]
  simp only [Option.getD_some]
  exact List.getElem_mem h

theorem getD_map_g {α β : Type} (l : List α) (f : α → β) (i : Nat) (da : α) (db : β)
    (h : i < l.length) : (l.map f).getD i db = f (l.getD i da) := by
  rw [List.getD_eq_getElem?_getD, List.getElem?_map, List.getElem?_eq_getElem h,
    List.getD_eq_getElem?_getD, List.getElem?_eq_getElem h]
  rfl

theorem foldl_max_le (k : Nat) : ∀ (l : List Nat) (a : Nat), a ≤ k → (∀ x ∈ l, x ≤ k) →
    l.foldl max a ≤ k := by
  intro l
  induction l with
  | nil => intro a ha _; simpa using ha
  | cons x rest ih =>
    intro a ha hx
    simp only [List.foldl_cons]
    exact ih (max a x) (Nat.max_le.mpr ⟨ha, hx x (List.mem_cons_self x rest)⟩)
      (fun y hy => hx y (List.mem_cons_of_mem x hy))

theorem foldl_max_ge_init : ∀ (l : List Nat) (a : Nat), a ≤ l.foldl max a := by
  intro l
  induction l with
  | nil => intro a; simp
  | cons x rest ih =>
    intro a
    simp only [List.foldl_cons]
    exact le_trans (Nat.le_max_left a x) (ih (max a x))

theorem foldl_max_ge_mem : ∀ (l : List Nat) (a x : Nat), x ∈ l → x ≤ l.foldl max a := by
  intro l
  induction l with
  | nil => intro a x hx; cases hx
  | cons y rest ih =>
    intro a x hx
    simp only [List.foldl_cons]
    rcases List.mem_cons.mp hx with rfl | hmem
    · exact le_trans (Nat.le_max_right a x) (foldl_max_ge_init rest (max a x))
    · exact ih (max a y) x hmem

theorem listMax_le (l : List Nat) (k : Nat) (h : ∀ x ∈ l, x ≤ k) : listMax l ≤ k :=
  foldl_max_le k l 0 (Nat.zero_le k) h

theorem listMax_ge (l : List Nat) (x : Nat) (h : x ∈ l) : x ≤ listMax l :=
  foldl_max_ge_mem l 0 x h

/-! ### Lengths of the packed regions -/

theorem packedHeader_length (m : LPM) : (LPM.packedHeader m).length = headerSize := by
  unfold LPM.packedHeader
  rw [flatten_length_fixed 4]
  · rfl
  · intro x hx
    rcases List.mem_map.mp hx with ⟨w, _, rfl⟩
    rfl

theorem blockBytes_length (blk : LPMBlock) (h : blk.length = blockSize) :
    (blockBytes blk).length = blockByteSize := by
  unfold blockBytes
  rw [flatten_length_fixed 4]
  · rw [List.length_map, h]
    rfl
  · intro x hx
    rcases List.mem_map.mp hx with ⟨w, _, rfl⟩
    rfl

namespace LPM

theorem wfBlocks_loadedBlocks (m : LPM) (p : Nat) (hT : wfTiers m) (hB : wfBlocks m)
    (hp : p < 2) :
    ∀ blk ∈ loadedBlocks m p, blk.length = blockSize ∧ ∀ w ∈ blk, w < pow32 := by
  intro blk hblk
  apply hB
  have hsh := hT.1
  have hdy := hT.2
  rcases List.mem_append.mp hblk with h | h
  · apply List.mem_append.mpr
    left
    apply List.mem_flatten.mpr
    refine ⟨m.sharedOf p, ?_, h⟩
    unfold sharedOf
    exact getD_mem _ _ _ (by omega)
  · apply List.mem_append.mpr
    right
    apply List.mem_flatten.mpr
    refine ⟨m.dynamicOf p, ?_, h⟩
    unfold dynamicOf
    exact getD_mem _ _ _ (by omega)

theorem packedBlocksBytes_eq (m : LPM) (p : Nat) :
    packedBlocksBytes m p = ((loadedBlocks m p).map blockBytes).flatten := rfl

theorem packedBlocksBytes_length (m : LPM) (p : Nat)
    (hB : ∀ blk ∈ loadedBlocks m p, blk.length = blockSize) :
    (packedBlocksBytes m p).length = m.totalBlocks p * blockByteSize := by
  rw [packedBlocksBytes_eq, flatten_length_fixed blockByteSize, List.length_map,
    totalBlocks_eq]
  intro x hx
  rcases List.mem_map.mp hx with ⟨blk, hblk, rfl⟩
  exact blockBytes_length blk (hB blk hblk)

theorem sharedStrLen_le_max (m : LPM) (i : Nat) (hi : i < m.sharedValueCount)
    (hU : sharedValuesUsed m) : sharedStrLen m i ≤ m.maxValueLen := by
  unfold maxValueLen
  apply listMax_ge
  apply List.mem_append.mpr
  left
  rw [if_pos hU]
  exact List.mem_map.mpr ⟨i, List.mem_range.mpr hi, rfl⟩

theorem dynLen_le_max (m : LPM) (v : List Nat) (hv : v ∈ m.revValues) :
    v.length ≤ m.maxValueLen := by
  unfold maxValueLen
  apply listMax_ge
  apply List.mem_append.mpr
  right
  exact List.mem_map.mpr ⟨v, hv, rfl⟩

end LPM

theorem sharedSlotBytes_length (m : LPM) (S i : Nat)
    (hin : i * m.sharedValuesSlotSize + 1 + sharedStrLen m i ≤ m.sharedValues.length)
    (hS : sharedStrLen m i < S) :
    (sharedSlotBytes m S i).length = S := by
  unfold sharedSlotBytes
  simp only [List.length_cons, List.length_append, List.length_take, List.length_drop,
    List.length_replicate]
  omega

theorem dynSlotBytes_length (S : Nat) (v : List Nat) (h : v.length < S) :
    (dynSlotBytes S v).length = S := by
  unfold dynSlotBytes
  simp only [List.length_cons, List.length_append, List.length_replicate]
  omega

namespace LPM

theorem packedWrittenSlots_length (m : LPM) :
    (packedWrittenSlots m).length =
      (if sharedValuesUsed m then m.sharedValueCount else 0) + m.revValues.length := by
  unfold packedWrittenSlots
  by_cases h : sharedValuesUsed m
  · rw [if_pos h, if_pos h]
    simp
  · rw [if_neg h, if_neg h]
    simp

theorem packedWrittenSlots_slotLength (m : LPM) (hS : wfSharedValues m) :
    ∀ x ∈ packedWrittenSlots m, x.length = packedValueSlotSize m := by
  intro x hx
  unfold packedWrittenSlots at hx
  rcases List.mem_append.mp hx with h | h
  · by_cases hU : sharedValuesUsed m
    · rw [if_pos hU] at h
      rcases List.mem_map.mp h with ⟨i, hi, rfl⟩
      have hi' := List.mem_range.mp hi
      have hw := hS (by have := hU.1; omega)
      apply sharedSlotBytes_length
      · exact hw.2.2.2 i hi'
      · have := sharedStrLen_le_max m i hi' hU
        unfold packedValueSlotSize
        omega
    · rw [if_neg hU] at h
      cases h
  · rcases List.mem_map.mp h with ⟨v, hv, rfl⟩
    apply dynSlotBytes_length
    have := dynLen_le_max m v hv
    unfold packedValueSlotSize
    omega

theorem packedValueBytes_length (m : LPM) (hS : wfSharedValues m) :
    (packedValueBytes m).length = packedValueCount m * packedValueSlotSize m := by
  unfold packedValueBytes
  rw [List.length_append, List.length_replicate,
    flatten_length_fixed (packedValueSlotSize m) _ (packedWrittenSlots_slotLength m hS),
    packedWrittenSlots_length]
  have hcount : (if sharedValuesUsed m then m.sharedValueCount else 0) + m.revValues.length ≤
      packedValueCount m := by
    unfold packedValueCount
    by_cases h : sharedValuesUsed m
    · rw [if_pos h]
    · rw [if_neg h]
      omega
  rw [← Nat.add_mul]
  congr 1
  omega

theorem packedStorage_length (m : LPM) (hT : wfTiers m) (hB : wfBlocks m)
    (hS : wfSharedValues m) :
    (packedStorage m).length = headerSize + m.totalBlocks v4LPM * blockByteSize +
      m.totalBlocks v6LPM * blockByteSize +
      packedValueCount m * packedValueSlotSize m := by
  unfold packedStorage
  rw [List.length_append, List.length_append, List.length_append, packedHeader_length,
    packedBlocksBytes_length m v4LPM
      (fun blk hb => (wfBlocks_loadedBlocks m v4LPM hT hB (by decide) blk hb).1),
    packedBlocksBytes_length m v6LPM
      (fun blk hb => (wfBlocks_loadedBlocks m v6LPM hT hB (by decide) blk hb).1),
    packedValueBytes_length m hS]
  omega

end LPM


/-! ### Reading the packed image back -/

theorem readLE32_of_window (l : List Nat) (off w : Nat)
    (h : ∀ c, c < 4 → l.getD (off + c) 0 = (le32 w).getD c 0) :
    readLE32 l off = w % pow32 := by
  unfold readLE32
  have g0 := h 0 (by omega)
  rw [Nat.add_zero] at g0
  rw [g0, h 1 (by omega), h 2 (by omega), h 3 (by omega)]
  show w % 256 + 256 * (w / 256 % 256) + 65536 * (w / 65536 % 256) +
    16777216 * (w / 16777216 % 256) = w % pow32
  unfold pow32
  omega

theorem readLE32_blocks_region (L : List LPMBlock) (hlen : ∀ blk ∈ L, blk.length = blockSize)
    (b s : Nat) (hb : b < L.length) (hs : s < blockSize) :
    readLE32 ((L.map blockBytes).flatten) (b * blockByteSize + s * 4) =
      (L.getD b []).getD s 0 % pow32 := by
  have houter : ∀ x ∈ L.map blockBytes, x.length = blockByteSize := by
    intro x hx
    rcases List.mem_map.mp hx with ⟨blk, hblk, rfl⟩
    exact blockBytes_length blk (hlen blk hblk)
  have hblen : (L.getD b []).length = blockSize := hlen _ (getD_mem L b [] hb)
  have hblkb : (L.map blockBytes).getD b [] = blockBytes (L.getD b []) :=
    getD_map_g L blockBytes b [] [] hb
  apply readLE32_of_window
  intro c hc
  have hidx : b * blockByteSize + s * 4 + c = b * blockByteSize + (s * 4 + c) := by omega
  rw [hidx]
  have h1 := flatten_getD_fixed blockByteSize 0 (L.map blockBytes) b (s * 4 + c) houter
    (by unfold blockSize at hs; unfold blockByteSize; omega)
  rw [h1, hblkb]
  unfold blockBytes
  have h2 := flatten_getD_fixed 4 0 ((L.getD b []).map le32) s c
    (by
      intro x hx
      rcases List.mem_map.mp hx with ⟨w, _, rfl⟩
      rfl) hc
  rw [h2]
  congr 1
  exact getD_map_g (L.getD b []) le32 s 0 [] (by rw [hblen]; exact hs)

namespace LPM

theorem packedStorage_readLE32_header (m : LPM) (j : Nat) (h : j < 9) :
    readLE32 (packedStorage m) (4 * j) =
      ([magicNumber, currentVersion, m.totalBlocks v4LPM, m.totalBlocks v6LPM,
        packedValueCount m, packedValueSlotSize m, headerSize,
        headerSize + m.totalBlocks v4LPM * blockByteSize,
        headerSize + m.totalBlocks v4LPM * blockByteSize +
          m.totalBlocks v6LPM * blockByteSize].getD j 0) % pow32 := by
  unfold packedStorage packedHeader
  exact readLE32_fields _ _ j (by simp; omega)

theorem packedValueSlotSize_le (m : LPM) :
    packedValueSlotSize m ≤ packedValueCount m * packedValueSlotSize m + 1 := by
  rcases Nat.eq_zero_or_pos (packedValueCount m) with h | h
  · unfold packedValueCount at h
    have h1 : m.sharedValueCount = 0 := by omega
    have h2 : m.revValues = [] := List.length_eq_zero.mp (by omega)
    have h3 : packedValueSlotSize m = 1 := by
      unfold packedValueSlotSize maxValueLen
      rw [if_neg (fun hU : sharedValuesUsed m => by
        have := hU.1
        omega), h2]
      rfl
    omega
  · exact le_trans (Nat.le_mul_of_pos_left _ h) (Nat.le_succ _)

theorem packFits_bounds (m : LPM) (hF : packFits m) :
    m.totalBlocks v4LPM < pow32 ∧ m.totalBlocks v6LPM < pow32 ∧
    packedValueCount m < pow32 ∧ packedValueSlotSize m < pow32 ∧
    headerSize + m.totalBlocks v4LPM * blockByteSize +
      m.totalBlocks v6LPM * blockByteSize +
      packedValueCount m * packedValueSlotSize m < pow32 := by
  have hS := packedValueSlotSize_le m
  have hVC : packedValueCount m ≤ packedValueCount m * packedValueSlotSize m :=
    Nat.le_mul_of_pos_right _ (by unfold packedValueSlotSize; omega)
  unfold packFits at hF
  unfold pow32 headerSize blockByteSize at *
  omega

theorem wf_used_iff (m : LPM) (hS : wfSharedValues m) :
    sharedValuesUsed m ↔ 0 < m.sharedValueCount := by
  constructor
  · exact fun h => h.1
  · intro h
    have hw := hS (by omega)
    refine ⟨h, ?_⟩
    intro hnil
    have h1 := hw.1
    have h2 := hw.2.1
    rw [hnil] at h2
    simp only [List.length_nil] at h2
    have hmul := Nat.mul_pos h h1
    omega

theorem packedValueBytes_getD (m : LPM) (hS : wfSharedValues m) (idx j : Nat)
    (hidx : idx < (packedWrittenSlots m).length) (hj : j < packedValueSlotSize m) :
    (packedValueBytes m).getD (idx * packedValueSlotSize m + j) 0 =
      ((packedWrittenSlots m).getD idx []).getD j 0 := by
  unfold packedValueBytes
  rw [List.getD_append]
  · exact flatten_getD_fixed _ 0 _ idx j (packedWrittenSlots_slotLength m hS) hj
  · rw [flatten_length_fixed _ _ (packedWrittenSlots_slotLength m hS)]
    have h1 : (idx + 1) * packedValueSlotSize m ≤
        (packedWrittenSlots m).length * packedValueSlotSize m :=
      Nat.mul_le_mul_right _ hidx
    have h2 : idx * packedValueSlotSize m + j < (idx + 1) * packedValueSlotSize m := by
      rw [Nat.succ_mul]
      omega
    omega

theorem packedWrittenSlots_getD_shared (m : LPM) (hU : sharedValuesUsed m) (i : Nat)
    (hi : i < m.sharedValueCount) :
    (packedWrittenSlots m).getD i [] = sharedSlotBytes m (packedValueSlotSize m) i := by
  unfold packedWrittenSlots
  rw [if_pos hU, List.getD_append _ _ _ _ (by rw [List.length_map, List.length_range]; exact hi),
    getD_map_g (List.range m.sharedValueCount) _ i 0 []
      (by rw [List.length_range]; exact hi),
    getD_range _ _ hi]

theorem packedWrittenSlots_getD_dyn (m : LPM) (hU : sharedValuesUsed m) (i : Nat)
    (hi : i < m.revValues.length) :
    (packedWrittenSlots m).getD (m.sharedValueCount + i) [] =
      dynSlotBytes (packedValueSlotSize m) (m.revValues.getD i []) := by
  unfold packedWrittenSlots
  have hlen : ((List.range m.sharedValueCount).map
      (sharedSlotBytes m (packedValueSlotSize m))).length = m.sharedValueCount := by
    rw [List.length_map, List.length_range]
  rw [if_pos hU, List.getD_append_right _ _ _ _ (by rw [hlen]; omega), hlen,
    show m.sharedValueCount + i - m.sharedValueCount = i by omega]
  exact getD_map_g m.revValues _ i [] [] hi

theorem packedWrittenSlots_getD_dyn_unused (m : LPM) (hU : ¬ sharedValuesUsed m) (i : Nat)
    (hi : i < m.revValues.length) :
    (packedWrittenSlots m).getD i [] =
      dynSlotBytes (packedValueSlotSize m) (m.revValues.getD i []) := by
  unfold packedWrittenSlots
  rw [if_neg hU, List.nil_append]
  exact getD_map_g m.revValues _ i [] [] hi

end LPM


/-! ### Deserializing the packed image -/

theorem drop_append_p {α : Type} (a b : List α) (k : Nat) :
    (a ++ b).drop (a.length + k) = b.drop k := by
  rw [← List.drop_drop k a.length (a ++ b), List.drop_left]

theorem blocksView_eq (pre post : List Nat) (L : List LPMBlock)
    (hlen : ∀ blk ∈ L, blk.length = blockSize ∧ ∀ w ∈ blk, w < pow32) :
    blocksView (pre ++ ((L.map blockBytes).flatten ++ post)) pre.length L.length = L := by
  have houter : ∀ x ∈ L.map blockBytes, x.length = blockByteSize := by
    intro x hx
    rcases List.mem_map.mp hx with ⟨blk, hblk, rfl⟩
    exact blockBytes_length blk (hlen blk hblk).1
  have hflat : ((L.map blockBytes).flatten).length = L.length * blockByteSize := by
    rw [flatten_length_fixed blockByteSize _ houter, List.length_map]
  unfold blocksView
  apply List.ext_getElem (by simp)
  intro b hb1 hb2
  have hb : b < L.length := hb2
  rw [List.getElem_map, List.getElem_range]
  apply List.ext_getElem
  · rw [List.length_map, List.length_range, (hlen _ (List.getElem_mem hb)).1]
  intro s hs1 hs2
  have hs : s < blockSize := by
    rw [List.length_map, List.length_range] at hs1
    exact hs1
  rw [List.getElem_map, List.getElem_range]
  rw [show pre.length + b * blockByteSize + s * 4 = pre.length + (b * blockByteSize + s * 4)
    by omega, readLE32_append_right]
  rw [readLE32_append_left _ _ _ (by
    rw [hflat]
    have h1 : (b + 1) * blockByteSize ≤ L.length * blockByteSize :=
      Nat.mul_le_mul_right _ (by omega)
    have h2 : b * blockByteSize + s * 4 + 4 ≤ (b + 1) * blockByteSize := by
      rw [Nat.succ_mul]
      unfold blockSize at hs
      unfold blockByteSize
      omega
    omega)]
  rw [readLE32_blocks_region L (fun blk h => (hlen blk h).1) b s hb hs]
  rw [List.getD_eq_getElem L [] hb,
    List.getD_eq_getElem _ 0 (by rw [(hlen _ (List.getElem_mem hb)).1]; exact hs)]
  exact Nat.mod_eq_of_lt ((hlen _ (List.getElem_mem hb)).2 _ (List.getElem_mem _))

namespace LPM

theorem PackToSharedStorage_ok (m : LPM) (hS : wfSharedValues m)
    (hdyn : ∀ v ∈ m.revValues, v.length ≤ 255) :
    PackToSharedStorage m = Except.ok (packedStorage m) := by
  unfold PackToSharedStorage
  rw [if_neg, if_neg]
  · intro hAny
    rw [List.any_eq_true] at hAny
    rcases hAny with ⟨v, hv, hpv⟩
    have := of_decide_eq_true hpv
    have := hdyn v hv
    omega
  · rintro ⟨hU, hAny⟩
    rw [List.any_eq_true] at hAny
    rcases hAny with ⟨x, hx, hpx⟩
    rcases List.mem_map.mp hx with ⟨i, hi, rfl⟩
    have hgt := of_decide_eq_true hpx
    have hw := hS (by have := hU.1; omega)
    have hb : sharedStrLen m i < 256 := by
      unfold sharedStrLen
      rcases Nat.lt_or_ge (i * m.sharedValuesSlotSize) m.sharedValues.length with h2 | h2
      · exact hw.2.2.1 _ (getD_mem _ _ _ h2)
      · rw [getD_oob _ _ _ h2]
        omega
    omega

theorem NewWithSharedStorage_packedStorage (m : LPM) (hT : wfTiers m) (hB : wfBlocks m)
    (hS : wfSharedValues m) (hF : packFits m) :
    NewWithSharedStorage (packedStorage m) = Except.ok (loadedState m) := by
  have hlen4 : ∀ blk ∈ loadedBlocks m v4LPM, blk.length = blockSize :=
    fun blk hb => (wfBlocks_loadedBlocks m v4LPM hT hB (by decide) blk hb).1
  have hlen6 : ∀ blk ∈ loadedBlocks m v6LPM, blk.length = blockSize :=
    fun blk hb => (wfBlocks_loadedBlocks m v6LPM hT hB (by decide) blk hb).1
  obtain ⟨hb4, hb6, hbVC, hbSS, hbtot⟩ := packFits_bounds m hF
  have hlen := packedStorage_length m hT hB hS
  have f0 : readLE32 (packedStorage m) 0 = magicNumber := by
    have h := packedStorage_readLE32_header m 0 (by omega)
    rw [show (4 * 0 : Nat) = 0 from rfl] at h
    rw [h]
    show magicNumber % pow32 = magicNumber
    decide
  have f1 : readLE32 (packedStorage m) 4 = currentVersion := by
    have h := packedStorage_readLE32_header m 1 (by omega)
    rw [show (4 * 1 : Nat) = 4 from rfl] at h
    rw [h]
    show currentVersion % pow32 = currentVersion
    decide
  have f2 : readLE32 (packedStorage m) 8 = m.totalBlocks v4LPM := by
    have h := packedStorage_readLE32_header m 2 (by omega)
    rw [show (4 * 2 : Nat) = 8 from rfl] at h
    rw [h]
    exact Nat.mod_eq_of_lt hb4
  have f3 : readLE32 (packedStorage m) 12 = m.totalBlocks v6LPM := by
    have h := packedStorage_readLE32_header m 3 (by omega)
    rw [show (4 * 3 : Nat) = 12 from rfl] at h
    rw [h]
    exact Nat.mod_eq_of_lt hb6
  have f4 : readLE32 (packedStorage m) 16 = packedValueCount m := by
    have h := packedStorage_readLE32_header m 4 (by omega)
    rw [show (4 * 4 : Nat) = 16 from rfl] at h
    rw [h]
    exact Nat.mod_eq_of_lt hbVC
  have f5 : readLE32 (packedStorage m) 20 = packedValueSlotSize m := by
    have h := packedStorage_readLE32_header m 5 (by omega)
    rw [show (4 * 5 : Nat) = 20 from rfl] at h
    rw [h]
    exact Nat.mod_eq_of_lt hbSS
  have f6 : readLE32 (packedStorage m) 24 = headerSize := by
    have h := packedStorage_readLE32_header m 6 (by omega)
    rw [show (4 * 6 : Nat) = 24 from rfl] at h
    rw [h]
    show headerSize % pow32 = headerSize
    decide
  have f7 : readLE32 (packedStorage m) 28 =
      headerSize + m.totalBlocks v4LPM * blockByteSize := by
    have h := packedStorage_readLE32_header m 7 (by omega)
    rw [show (4 * 7 : Nat) = 28 from rfl] at h
    rw [h]
    show (headerSize + m.totalBlocks v4LPM * blockByteSize) % pow32 =
      headerSize + m.totalBlocks v4LPM * blockByteSize
    exact Nat.mod_eq_of_lt (by omega)
  have f8 : readLE32 (packedStorage m) 32 =
      headerSize + m.totalBlocks v4LPM * blockByteSize +
        m.totalBlocks v6LPM * blockByteSize := by
    have h := packedStorage_readLE32_header m 8 (by omega)
    rw [show (4 * 8 : Nat) = 32 from rfl] at h
    rw [h]
    show (headerSize + m.totalBlocks v4LPM * blockByteSize +
      m.totalBlocks v6LPM * blockByteSize) % pow32 =
      headerSize + m.totalBlocks v4LPM * blockByteSize + m.totalBlocks v6LPM * blockByteSize
    exact Nat.mod_eq_of_lt (by omega)
  have hv4 : blocksView (packedStorage m) headerSize (m.totalBlocks v4LPM) =
      loadedBlocks m v4LPM := by
    have h := blocksView_eq (packedHeader m)
      (packedBlocksBytes m v6LPM ++ packedValueBytes m) (loadedBlocks m v4LPM)
      (wfBlocks_loadedBlocks m v4LPM hT hB (by decide))
    rw [packedHeader_length] at h
    rw [totalBlocks_eq m v4LPM]
    unfold packedStorage
    rw [packedBlocksBytes_eq m v4LPM]
    exact h
  have hv6 : blocksView (packedStorage m)
      (headerSize + m.totalBlocks v4LPM * blockByteSize) (m.totalBlocks v6LPM) =
      loadedBlocks m v6LPM := by
    have h := blocksView_eq (packedHeader m ++ packedBlocksBytes m v4LPM)
      (packedValueBytes m) (loadedBlocks m v6LPM)
      (wfBlocks_loadedBlocks m v6LPM hT hB (by decide))
    rw [List.length_append, packedHeader_length,
      packedBlocksBytes_length m v4LPM hlen4] at h
    rw [totalBlocks_eq m v6LPM]
    unfold packedStorage
    rw [packedBlocksBytes_eq m v6LPM, ← List.append_assoc]
    exact h
  have hvals : ((packedStorage m).drop
      (headerSize + m.totalBlocks v4LPM * blockByteSize +
        m.totalBlocks v6LPM * blockByteSize)).take
      (packedValueCount m * packedValueSlotSize m) = packedValueBytes m := by
    have hA : packedStorage m =
        (packedHeader m ++ (packedBlocksBytes m v4LPM ++ packedBlocksBytes m v6LPM)) ++
          packedValueBytes m := by
      unfold packedStorage
      simp [List.append_assoc]
    have hAl : (packedHeader m ++
        (packedBlocksBytes m v4LPM ++ packedBlocksBytes m v6LPM)).length =
        headerSize + m.totalBlocks v4LPM * blockByteSize +
          m.totalBlocks v6LPM * blockByteSize := by
      rw [List.length_append, List.length_append, packedHeader_length,
        packedBlocksBytes_length m v4LPM hlen4, packedBlocksBytes_length m v6LPM hlen6]
      omega
    rw [hA, ← hAl, List.drop_left, ← packedValueBytes_length m hS, List.take_length]
  have hc1 : ¬ ((packedStorage m).length < headerSize) := by omega
  have hSSpos : 0 < packedValueSlotSize m := by
    unfold packedValueSlotSize
    omega
  unfold NewWithSharedStorage
  rw [if_neg hc1]
  simp only [f0, f1, f2, f3, f4, f5, f6, f7, f8]
  rw [if_neg (not_not_intro rfl), if_neg (not_not_intro rfl)]
  rw [if_neg (show ¬ (0 < m.totalBlocks v4LPM ∧ (packedStorage m).length <
      headerSize + m.totalBlocks v4LPM * blockByteSize) by
    rintro ⟨-, h2⟩
    omega)]
  rw [if_neg (show ¬ (0 < m.totalBlocks v6LPM ∧ (packedStorage m).length <
      headerSize + m.totalBlocks v4LPM * blockByteSize +
        m.totalBlocks v6LPM * blockByteSize) by
    rintro ⟨-, h2⟩
    omega)]
  rw [if_neg (show ¬ (0 < packedValueCount m ∧ 0 < packedValueSlotSize m ∧
      (packedStorage m).length <
        headerSize + m.totalBlocks v4LPM * blockByteSize +
          m.totalBlocks v6LPM * blockByteSize +
          packedValueCount m * packedValueSlotSize m) by
    rintro ⟨-, -, h2⟩
    omega)]
  rw [hv4, hv6, hvals]
  unfold loadedState
  by_cases hVCpos : 0 < packedValueCount m
  · rw [if_pos ⟨hVCpos, hSSpos⟩, if_pos hVCpos]
  · rw [if_neg (fun h => hVCpos h.1), if_neg hVCpos]

end LPM


/-! ### Values after reload -/

theorem take_drop_getD_eq (l1 l2 : List Nat) (a b s : Nat)
    (h1 : a + s ≤ l1.length) (h2 : b + s ≤ l2.length)
    (h : ∀ j < s, l1.getD (a + j) 0 = l2.getD (b + j) 0) :
    (l1.drop a).take s = (l2.drop b).take s := by
  apply List.ext_getElem
  · rw [List.length_take, List.length_drop, List.length_take, List.length_drop]
    omega
  intro j hj1 hj2
  have hjs : j < s := by
    rw [List.length_take, List.length_drop] at hj1
    omega
  rw [← List.getD_eq_getElem _ 0 hj1, ← List.getD_eq_getElem _ 0 hj2,
    getD_take_lt _ _ _ _ hjs, getD_take_lt _ _ _ _ hjs, getD_drop_p, getD_drop_p]
  exact h j hjs

theorem take_drop_eq_list (l1 : List Nat) (a : Nat) (v : List Nat)
    (h1 : a + v.length ≤ l1.length)
    (h : ∀ j < v.length, l1.getD (a + j) 0 = v.getD j 0) :
    (l1.drop a).take v.length = v := by
  apply List.ext_getElem
  · rw [List.length_take, List.length_drop]
    omega
  intro j hj1 hj2
  rw [← List.getD_eq_getElem _ 0 hj1, ← List.getD_eq_getElem _ 0 hj2,
    getD_take_lt _ _ _ _ hj2, getD_drop_p]
  exact h j hj2

namespace LPM

theorem loadedState_valueCount (m : LPM) :
    (loadedState m).sharedValueCount = packedValueCount m := rfl

theorem loadedState_slotSize (m : LPM) :
    (loadedState m).sharedValuesSlotSize = packedValueSlotSize m := rfl

theorem loadedState_revValues (m : LPM) : (loadedState m).revValues = [] := rfl

theorem loadedState_sharedValues_pos (m : LPM) (h : 0 < packedValueCount m) :
    (loadedState m).sharedValues = packedValueBytes m := by
  show (if 0 < packedValueCount m then packedValueBytes m else []) = packedValueBytes m
  rw [if_pos h]

theorem getValueByIndex_loadedState (m : LPM) (hS : wfSharedValues m)
    (hdyn : ∀ v ∈ m.revValues, v ≠ []) (i : Nat) :
    (loadedState m).getValueByIndex i = m.getValueByIndex i := by
  have hSS' : 0 < packedValueSlotSize m := by
    unfold packedValueSlotSize
    omega
  have hSSdef : packedValueSlotSize m = maxValueLen m + 1 := rfl
  have hVCdef : packedValueCount m = m.sharedValueCount + m.revValues.length := rfl
  have hWSlen := packedWrittenSlots_length m
  by_cases hiVC : i < packedValueCount m
  · have hVCpos : 0 < packedValueCount m := by omega
    have hpvbLen : (packedValueBytes m).length =
        packedValueCount m * packedValueSlotSize m := packedValueBytes_length m hS
    have hsucc : (i + 1) * packedValueSlotSize m =
        i * packedValueSlotSize m + packedValueSlotSize m := Nat.succ_mul _ _
    have hoffBound : (i + 1) * packedValueSlotSize m ≤
        packedValueCount m * packedValueSlotSize m :=
      Nat.mul_le_mul_right _ (by omega)
    have hne : ¬ (packedValueBytes m = [] ∨ packedValueSlotSize m = 0) := by
      rintro (h | h)
      · have := Nat.mul_pos hVCpos hSS'
        rw [h] at hpvbLen
        simp only [List.length_nil] at hpvbLen
        omega
      · omega
    have hlenOk : ¬ ((packedValueBytes m).length <
        i * packedValueSlotSize m + packedValueSlotSize m) := by
      rw [hpvbLen]
      omega
    by_cases hiS : i < m.sharedValueCount
    · -- a repacked shared-tier slot
      have hU : sharedValuesUsed m := (wf_used_iff m hS).mpr (by omega)
      obtain ⟨hSS0, hsvLen, hsvBytes, hsvIn⟩ := hS (by omega)
      have hWi : i < (packedWrittenSlots m).length := by
        rw [hWSlen, if_pos hU]
        omega
      have hslot : (packedWrittenSlots m).getD i [] =
          sharedSlotBytes m (packedValueSlotSize m) i :=
        packedWrittenSlots_getD_shared m hU i hiS
      have hstr : (packedValueBytes m).getD (i * packedValueSlotSize m) 0 =
          sharedStrLen m i := by
        have h := packedValueBytes_getD m hS i 0 hWi hSS'
        rw [Nat.add_zero] at h
        rw [h, hslot]
        rfl
      have hsmax : sharedStrLen m i ≤ maxValueLen m := sharedStrLen_le_max m i hiS hU
      have hsvNe : ¬ (m.sharedValues = [] ∨ m.sharedValuesSlotSize = 0) := by
        rintro (h | h)
        · have := Nat.mul_pos (show 0 < m.sharedValueCount by omega) hSS0
          rw [h] at hsvLen
          simp only [List.length_nil] at hsvLen
          omega
        · omega
      have hsvBound : ¬ (m.sharedValues.length <
          i * m.sharedValuesSlotSize + m.sharedValuesSlotSize) := by
        have h1 : (i + 1) * m.sharedValuesSlotSize ≤
            m.sharedValueCount * m.sharedValuesSlotSize :=
          Nat.mul_le_mul_right _ (by omega)
        rw [Nat.succ_mul] at h1
        omega
      have hin := hsvIn i hiS
      simp only [getValueByIndex, loadedState_valueCount,
        loadedState_sharedValues_pos m hVCpos, loadedState_slotSize]
      rw [if_pos hiVC, if_pos hiS, if_neg hne, if_neg hsvNe, if_neg hlenOk,
        if_neg hsvBound]
      simp only [hstr]
      rw [show m.sharedValues.getD (i * m.sharedValuesSlotSize) 0 = sharedStrLen m i
        from rfl]
      by_cases hs0 : sharedStrLen m i = 0
      · rw [if_pos (Or.inl hs0), if_pos (Or.inl hs0)]
      · rw [if_neg (show ¬ (sharedStrLen m i = 0 ∨ (packedValueBytes m).length <
            i * packedValueSlotSize m + 1 + sharedStrLen m i) by
          rintro (h | h)
          · exact hs0 h
          · rw [hpvbLen] at h
            omega),
          if_neg (show ¬ (sharedStrLen m i = 0 ∨ m.sharedValues.length <
            i * m.sharedValuesSlotSize + 1 + sharedStrLen m i) by
          rintro (h | h)
          · exact hs0 h
          · omega)]
        rw [Prod.mk.injEq]
        refine ⟨?_, rfl⟩
        apply take_drop_getD_eq
        · rw [hpvbLen]
          omega
        · omega
        · intro j hj
          rw [show i * packedValueSlotSize m + 1 + j =
            i * packedValueSlotSize m + (1 + j) by omega,
            packedValueBytes_getD m hS i (1 + j) hWi (by omega), hslot]
          unfold sharedSlotBytes
          rw [show (1 + j : Nat) = j + 1 by omega, List.getD_cons_succ]
          have hpayLen : ((m.sharedValues.drop (i * m.sharedValuesSlotSize + 1)).take
              (sharedStrLen m i)).length = sharedStrLen m i := by
            rw [List.length_take, List.length_drop]
            omega
          rw [List.getD_append _ _ _ _ (by rw [hpayLen]; omega),
            getD_take_lt _ _ _ _ hj, getD_drop_p]
    · -- a dynamic value in its packed slot
      have hd : i - m.sharedValueCount < m.revValues.length := by omega
      have hv : m.revValues.getD (i - m.sharedValueCount) [] ∈ m.revValues :=
        getD_mem _ _ _ hd
      have hvne := hdyn _ hv
      have hvlen : (m.revValues.getD (i - m.sharedValueCount) []).length ≠ 0 :=
        fun h => hvne (List.length_eq_zero.mp h)
      have hvmax : (m.revValues.getD (i - m.sharedValueCount) []).length ≤
          maxValueLen m := dynLen_le_max m _ hv
      have hWi : i < (packedWrittenSlots m).length := by
        rw [hWSlen]
        by_cases hU : sharedValuesUsed m
        · rw [if_pos hU]
          omega
        · rw [if_neg hU]
          have hSVC0 : m.sharedValueCount = 0 := by
            by_contra h
            exact hU ((wf_used_iff m hS).mpr (by omega))
          omega
      have hslot : (packedWrittenSlots m).getD i [] =
          dynSlotBytes (packedValueSlotSize m)
            (m.revValues.getD (i - m.sharedValueCount) []) := by
        by_cases hU : sharedValuesUsed m
        · have h := packedWrittenSlots_getD_dyn m hU (i - m.sharedValueCount) hd
          rw [show m.sharedValueCount + (i - m.sharedValueCount) = i by omega] at h
          exact h
        · have hSVC0 : m.sharedValueCount = 0 := by
            by_contra h
            exact hU ((wf_used_iff m hS).mpr (by omega))
          rw [show i - m.sharedValueCount = i by omega]
          have h := packedWrittenSlots_getD_dyn_unused m hU (i - m.sharedValueCount) hd
          rw [show i - m.sharedValueCount = i by omega] at h
          exact h
      have hstr : (packedValueBytes m).getD (i * packedValueSlotSize m) 0 =
          (m.revValues.getD (i - m.sharedValueCount) []).length := by
        have h := packedValueBytes_getD m hS i 0 hWi hSS'
        rw [Nat.add_zero] at h
        rw [h, hslot]
        rfl
      simp only [getValueByIndex, loadedState_valueCount,
        loadedState_sharedValues_pos m hVCpos, loadedState_slotSize]
      rw [if_pos hiVC, if_neg hiS, if_neg hne, if_neg hlenOk]
      simp only [hstr]
      rw [if_neg (show ¬ ((m.revValues.getD (i - m.sharedValueCount) []).length = 0 ∨
          (packedValueBytes m).length < i * packedValueSlotSize m + 1 +
            (m.revValues.getD (i - m.sharedValueCount) []).length) by
        rintro (h | h)
        · exact hvlen h
        · rw [hpvbLen] at h
          omega),
        if_neg (show ¬ (m.revValues.length ≤ i - m.sharedValueCount) by omega)]
      rw [Prod.mk.injEq]
      refine ⟨?_, rfl⟩
      apply take_drop_eq_list
      · rw [hpvbLen]
        omega
      · intro j hj
        rw [show i * packedValueSlotSize m + 1 + j =
          i * packedValueSlotSize m + (1 + j) by omega,
          packedValueBytes_getD m hS i (1 + j) hWi (by omega), hslot]
        unfold dynSlotBytes
        rw [show (1 + j : Nat) = j + 1 by omega, List.getD_cons_succ]
        rw [List.getD_append _ _ _ _ hj]
  · simp only [getValueByIndex, loadedState_valueCount, loadedState_revValues]
    rw [if_neg hiVC, if_pos (show List.length ([] : List (List Nat)) ≤
        i - packedValueCount m by simp),
      if_neg (show ¬ (i < m.sharedValueCount) by omega),
      if_pos (show m.revValues.length ≤ i - m.sharedValueCount by omega)]

end LPM


/-! ### Lookup after reload -/

namespace LPM

theorem lookupLoop_congr (m1 m2 : LPM) (q : Nat)
    (hget : ∀ b s, m1.getValue q b s = m2.getValue q b s)
    (hval : ∀ i, m1.getValueByIndex i = m2.getValueByIndex i) :
    ∀ (bytes : List Nat) (bI : Nat), m1.lookupLoop q bytes bI = m2.lookupLoop q bytes bI := by
  intro bytes
  induction bytes with
  | nil => intro bI; rfl
  | cons x rest ih =>
    intro bI
    unfold lookupLoop
    rw [hget bI x]
    by_cases h1 : isBlockRef (m2.getValue q bI x)
    · simp only [h1, if_true]
      exact ih _
    · simp only [h1, Bool.false_eq_true, if_false]
      by_cases h2 : isInvalid (m2.getValue q bI x)
      · simp only [h2, if_true]
      · simp only [h2, Bool.false_eq_true, if_false]
        exact hval _

theorem loadedBlocks_loadedState (m : LPM) (q : Nat) (hq : q < 2) :
    loadedBlocks (loadedState m) q =
      loadedBlocks m q ++ (if m.totalBlocks q = 0 then [zeroBlock] else []) := by
  rcases q with _ | q
  · rfl
  · rcases q with _ | q
    · rfl
    · omega

theorem getValue_loadedState (m : LPM) (q b s : Nat) (hq : q < 2) :
    (loadedState m).getValue q b s = m.getValue q b s := by
  rw [getValue_eq, getValue_eq, loadedBlocks_loadedState m q hq]
  by_cases h0 : m.totalBlocks q = 0
  · rw [if_pos h0]
    have hnil : loadedBlocks m q = [] := by
      apply List.length_eq_zero.mp
      rw [← totalBlocks_eq]
      exact h0
    rw [hnil]
    simp only [List.nil_append]
    rw [getD_oob ([] : List LPMBlock) b [] (by simp),
      getD_oob ([] : List Nat) s 0 (by simp)]
    rcases b with _ | b
    · rw [show ([zeroBlock] : List LPMBlock).getD 0 [] = zeroBlock from rfl, zeroBlock_getD]
    · rw [getD_oob ([zeroBlock] : List LPMBlock) (b + 1) [] (by simp),
        getD_oob ([] : List Nat) s 0 (by simp)]
  · rw [if_neg h0, List.append_nil]

theorem Lookup_loadedState (m : LPM) (hS : wfSharedValues m)
    (hdyn : ∀ v ∈ m.revValues, v ≠ []) (a : List Nat) :
    (loadedState m).Lookup a = m.Lookup a := by
  show (loadedState m).lookupLoop (if a.length = 16 then v6LPM else v4LPM) a 0 =
    m.lookupLoop (if a.length = 16 then v6LPM else v4LPM) a 0
  apply lookupLoop_congr
  · intro b s
    apply getValue_loadedState
    by_cases h : a.length = 16
    · rw [if_pos h]
      decide
    · rw [if_neg h]
      decide
  · exact getValueByIndex_loadedState m hS hdyn

end LPM


/-! ## The claims -/

set_option maxRecDepth 20000

/-- C1: counterexample to unconditional longest-prefix-wins.  In the trie
built by inserting 10.0.0.0/8 ↦ [65], 10.1.1.0/24 ↦ [66] and 10.1.0.0/16 ↦
[67] into a fresh trie, the address 10.1.2.3 is contained in 10.0.0.0/8 and
in 10.1.0.0/16 but not in 10.1.1.0/24, so the longest inserted prefix
containing it is 10.1.0.0/16 with value [67]; yet `Lookup` returns the /8
value [65], because `propagateValue` refuses to overwrite the slots of the
/24 child block that already hold the /8 terminal. -/
theorem c1_longest_prefix_counterexample :
    cidrContains ⟨[10, 0, 0, 0], 8⟩ [10, 1, 2, 3] = true ∧
    cidrContains ⟨[10, 1, 0, 0], 16⟩ [10, 1, 2, 3] = true ∧
    cidrContains ⟨[10, 1, 1, 0], 24⟩ [10, 1, 2, 3] = false ∧
    (((New.Insert ⟨[10, 0, 0, 0], 8⟩ [65]).Insert ⟨[10, 1, 1, 0], 24⟩ [66]).Insert
      ⟨[10, 1, 0, 0], 16⟩ [67]).Lookup [10, 1, 2, 3] = ([65], true) := by
  decide

/-- C2: counterexample to order independence.  Inserting the pairwise
distinct prefixes 10.0.0.0/8, 10.1.1.0/24, 10.1.0.0/16 in the order
(8, 24, 16) and in descending prefix-length order (24, 16, 8) yields
different lookup results for 10.1.2.3. -/
theorem c2_order_independence_counterexample :
    (((New.Insert ⟨[10, 0, 0, 0], 8⟩ [65]).Insert ⟨[10, 1, 1, 0], 24⟩ [66]).Insert
      ⟨[10, 1, 0, 0], 16⟩ [67]).Lookup [10, 1, 2, 3] ≠
    (((New.Insert ⟨[10, 1, 1, 0], 24⟩ [66]).Insert ⟨[10, 1, 0, 0], 16⟩ [67]).Insert
      ⟨[10, 0, 0, 0], 8⟩ [65]).Lookup [10, 1, 2, 3] := by
  decide

/-- C3: counterexample to lookup-after-insert on an arbitrary trie: after
inserting 10.1.0.1/32 and then 10.1.0.0/16, looking up the base address
10.1.0.0 of the prefix inserted last returns not-found, because the /16
terminal is propagated only into empty slots of the existing /24-depth chain
and slot 0 of the leaf block is genuinely empty yet unreachable. -/
theorem c3_base_lookup_counterexample :
    ((New.Insert ⟨[10, 1, 0, 1], 32⟩ [88]).Insert ⟨[10, 1, 0, 0], 16⟩ [89]).Lookup
      (baseAddr ⟨[10, 1, 0, 0], 16⟩) = ([], false) := by
  decide

/-- C3 (amended): after the first insert into a fresh trie, looking up the
base address of the inserted prefix returns the inserted value. -/
theorem c3_lookup_after_first_insert (addr : List Nat) (P : Nat) (v : List Nat)
    (hlen : addr.length = 4 ∨ addr.length = 16)
    (hP : P ≤ 8 * addr.length)
    (hbytes : ∀ x ∈ addr, x < 256) :
    (New.Insert ⟨addr, P⟩ v).Lookup (baseAddr ⟨addr, P⟩) = (v, true) := by
  have hne : addr ≠ [] := by
    rcases hlen with h | h <;> (intro he; rw [he] at h; simp at h)
  have hPle : P ≤ 128 := by rcases hlen with h | h <;> omega
  have hIns : New.Insert ⟨addr, P⟩ v =
      LPM.insertLoop (if addr.length = 16 then v6LPM else v4LPM) 0 P addr 0 0
        (⟨[[], []], [], 0, 0, [[zeroBlock], [zeroBlock]], [(v, 0)], [v]⟩ : LPM) := rfl
  by_cases h16 : addr.length = 16
  case pos =>
    obtain ⟨_, iVf, _, _, iLook⟩ := LPM.insertLoop_zero_chain v6LPM 0 P addr 0 0
      (⟨[[], []], [], 0, 0, [[zeroBlock], [zeroBlock]], [(v, 0)], [v]⟩ : LPM)
      ⟨rfl, rfl⟩ (by norm_num [v6LPM]) rfl rfl hbytes (by omega)
      (by show 1 + addr.length < 2 ^ 30; omega)
      (by norm_num) hPle hne
    rw [hIns, if_pos h16]
    unfold LPM.Lookup
    rw [show (baseAddr ⟨addr, P⟩).length = addr.length from baseFrom_length P 0 addr,
      if_pos h16]
    rw [show baseAddr ⟨addr, P⟩ = baseFrom P 0 addr from rfl]
    rw [iLook, LPM.getValueByIndex_congr _ _ iVf 0]
    rfl
  case neg =>
    obtain ⟨_, iVf, _, _, iLook⟩ := LPM.insertLoop_zero_chain v4LPM 0 P addr 0 0
      (⟨[[], []], [], 0, 0, [[zeroBlock], [zeroBlock]], [(v, 0)], [v]⟩ : LPM)
      ⟨rfl, rfl⟩ (by norm_num [v4LPM]) rfl rfl hbytes (by omega)
      (by show 1 + addr.length < 2 ^ 30; omega)
      (by norm_num) hPle hne
    rw [hIns, if_neg h16]
    unfold LPM.Lookup
    rw [show (baseAddr ⟨addr, P⟩).length = addr.length from baseFrom_length P 0 addr,
      if_neg h16]
    rw [show baseAddr ⟨addr, P⟩ = baseFrom P 0 addr from rfl]
    rw [iLook, LPM.getValueByIndex_congr _ _ iVf 0]
    rfl

/-- C3 witness: the amended statement at 10.1.0.0/16 ↦ [89]. -/
theorem c3_lookup_after_first_insert_witness :
    (New.Insert ⟨[10, 1, 0, 0], 16⟩ [89]).Lookup (baseAddr ⟨[10, 1, 0, 0], 16⟩) =
      ([89], true) :=
  c3_lookup_after_first_insert [10, 1, 0, 0] 16 [89] (Or.inl rfl) (by decide)
    (by decide)

/-- C4: counterexample to the unconditional round trip: the empty value bound
to 10.0.0.0/8 is found before packing but reported not-found after pack and
load, because the loader-side value reader treats a zero length byte as
not-found. -/
theorem c4_roundtrip_counterexample :
    ∃ s m', LPM.PackToSharedStorage (New.Insert ⟨[10, 0, 0, 0], 8⟩ []) =
        Except.ok s ∧
      NewWithSharedStorage s = Except.ok m' ∧
      m'.Lookup [10, 9, 9, 9] ≠
        (New.Insert ⟨[10, 0, 0, 0], 8⟩ []).Lookup [10, 9, 9, 9] := by
  refine ⟨_, _, LPM.PackToSharedStorage_ok _ (by decide) (by decide),
    LPM.NewWithSharedStorage_packedStorage _ (by decide) (by decide) (by decide)
      (by decide), ?_⟩
  decide

/-- C4 (amended): for a structurally well-formed trie whose packed image fits
in 32-bit offsets and whose dynamically inserted values are nonempty and at
most 255 bytes long, pack succeeds, loading the packed image succeeds, and
the loaded trie gives the same result as the original on every lookup. -/
theorem c4_pack_load_roundtrip (m : LPM) (hT : wfTiers m) (hB : wfBlocks m)
    (hS : wfSharedValues m) (hF : packFits m)
    (hv : ∀ v ∈ m.revValues, v ≠ [] ∧ v.length ≤ 255) :
    ∃ s m', LPM.PackToSharedStorage m = Except.ok s ∧
      NewWithSharedStorage s = Except.ok m' ∧
      ∀ a, m'.Lookup a = m.Lookup a :=
  ⟨LPM.packedStorage m, loadedState m,
    LPM.PackToSharedStorage_ok m hS (fun v hv2 => (hv v hv2).2),
    LPM.NewWithSharedStorage_packedStorage m hT hB hS hF,
    fun a => LPM.Lookup_loadedState m hS (fun v hv2 => (hv v hv2).1) a⟩

/-- C4 witness: the amended round trip on a two-prefix IPv4 trie. -/
theorem c4_pack_load_roundtrip_witness :
    ∃ s m', LPM.PackToSharedStorage
        ((New.Insert ⟨[10, 0, 0, 0], 8⟩ [65]).Insert ⟨[10, 1, 0, 0], 16⟩ [66]) =
        Except.ok s ∧
      NewWithSharedStorage s = Except.ok m' ∧
      ∀ a, m'.Lookup a =
        ((New.Insert ⟨[10, 0, 0, 0], 8⟩ [65]).Insert
          ⟨[10, 1, 0, 0], 16⟩ [66]).Lookup a :=
  c4_pack_load_roundtrip _ (by decide) (by decide) (by decide) (by decide)
    (by decide)

/-- C5: the slot codec does not enforce its index capacities: a value index
of 2^24 encodes to the same slot word as value index 0 (it silently bleeds
into the prefix-length bits), and a block index of 2^30 encodes to the same
slot word as block index 0; nothing in `addValue` or `Insert` surfaces an
error or panic for such indices. -/
theorem c5_codec_truncation :
    encodeValue 16777216 24 = encodeValue 0 24 ∧
    decodeValue (encodeValue 16777216 24) = (0, 24) ∧
    encodeBlockRef 1073741824 = encodeBlockRef 0 ∧
    decodeBlockRef (encodeBlockRef 1073741824) = 0 := by
  decide

/-- C6: counterexample to the claimed load-error condition: a 36-byte buffer
whose header declares one value with slot size 0 at offset 100 — a value
region extending past the end of the buffer — is accepted by the loader,
because the value-region bounds check is skipped whenever the declared slot
size is zero. -/
theorem c6_load_error_counterexample :
    loadErrorSpec (le32 magicNumber ++ le32 1 ++ le32 0 ++ le32 0 ++ le32 1 ++
      le32 0 ++ le32 0 ++ le32 0 ++ le32 100) ∧
    ∃ m, NewWithSharedStorage (le32 magicNumber ++ le32 1 ++ le32 0 ++ le32 0 ++
      le32 1 ++ le32 0 ++ le32 0 ++ le32 0 ++ le32 100) = Except.ok m := by
  exact ⟨by decide, ⟨_, rfl⟩⟩

/-- C6 (amended): the loader fails exactly when the buffer is smaller than
the 36-byte header, the magic or version field is wrong, a block region with
nonzero count extends past the buffer, or the value region extends past the
buffer while both the declared value count and the declared slot size are
nonzero. -/
theorem c6_load_error_iff (storage : List Nat) :
    (∃ e, NewWithSharedStorage storage = Except.error e) ↔
      (storage.length < headerSize ∨
       readLE32 storage 0 ≠ magicNumber ∨
       readLE32 storage 4 ≠ currentVersion ∨
       (0 < readLE32 storage 8 ∧
         storage.length < readLE32 storage 24 + readLE32 storage 8 * blockByteSize) ∨
       (0 < readLE32 storage 12 ∧
         storage.length < readLE32 storage 28 + readLE32 storage 12 * blockByteSize) ∨
       (0 < readLE32 storage 16 ∧ 0 < readLE32 storage 20 ∧
         storage.length < readLE32 storage 32 +
           readLE32 storage 16 * readLE32 storage 20)) := by
  unfold NewWithSharedStorage
  by_cases h1 : storage.length < headerSize
  · rw [if_pos h1]
    exact ⟨fun _ => Or.inl h1, fun _ => ⟨_, rfl⟩⟩
  · rw [if_neg h1]
    by_cases h2 : readLE32 storage 0 ≠ magicNumber
    · rw [if_pos h2]
      exact ⟨fun _ => Or.inr (Or.inl h2), fun _ => ⟨_, rfl⟩⟩
    · rw [if_neg h2]
      by_cases h3 : readLE32 storage 4 ≠ currentVersion
      · rw [if_pos h3]
        exact ⟨fun _ => Or.inr (Or.inr (Or.inl h3)), fun _ => ⟨_, rfl⟩⟩
      · rw [if_neg h3]
        by_cases h4 : 0 < readLE32 storage 8 ∧
            storage.length < readLE32 storage 24 + readLE32 storage 8 * blockByteSize
        · rw [if_pos h4]
          exact ⟨fun _ => Or.inr (Or.inr (Or.inr (Or.inl h4))), fun _ => ⟨_, rfl⟩⟩
        · rw [if_neg h4]
          by_cases h5 : 0 < readLE32 storage 12 ∧
              storage.length < readLE32 storage 28 +
                readLE32 storage 12 * blockByteSize
          · rw [if_pos h5]
            exact ⟨fun _ => Or.inr (Or.inr (Or.inr (Or.inr (Or.inl h5)))),
              fun _ => ⟨_, rfl⟩⟩
          · rw [if_neg h5]
            by_cases h6 : 0 < readLE32 storage 16 ∧ 0 < readLE32 storage 20 ∧
                storage.length < readLE32 storage 32 +
                  readLE32 storage 16 * readLE32 storage 20
            · rw [if_pos h6]
              exact ⟨fun _ => Or.inr (Or.inr (Or.inr (Or.inr (Or.inr h6)))),
                fun _ => ⟨_, rfl⟩⟩
            · rw [if_neg h6]
              constructor
              · rintro ⟨e, he⟩
                cases he
              · intro h
                rcases h with h | h | h | h | h | h
                · exact absurd h h1
                · exact absurd h h2
                · exact absurd h h3
                · exact absurd h h4
                · exact absurd h h5
                · exact absurd h h6

/-- C7: family isolation: an insert whose prefix family differs from the
looked-up address's family leaves that lookup unchanged, for any trie whose
tier arrays have the Go shape and whose terminal slots reference existing
values in the looked-up family. -/
theorem c7_family_isolation (m : LPM) (net : Cidr) (v : List Nat) (a : List Nat)
    (hT : wfTiers m)
    (hdiff : (a.length = 16) ≠ (net.addr.length = 16))
    (hb : ∀ x ∈ a, x < 256)
    (hwf : wfValueRefs m (if a.length = 16 then v6LPM else v4LPM)) :
    (m.Insert net v).Lookup a = m.Lookup a :=
  LPM.Lookup_after_other_Insert m net v a hT hdiff hb hwf

/-- C7 witness: inserting ::/0 into a fresh trie does not change the lookup
of the IPv4 address 1.2.3.4. -/
theorem c7_family_isolation_witness :
    (New.Insert ⟨List.replicate 16 0, 0⟩ [60]).Lookup [1, 2, 3, 4] =
      New.Lookup [1, 2, 3, 4] :=
  c7_family_isolation New ⟨List.replicate 16 0, 0⟩ [60] [1, 2, 3, 4] (by decide)
    (fun h => absurd (Eq.mpr h (by decide)) (by decide)) (by decide) (by decide)

/-- C8: the slot codec `Insert` writes through lets a terminal slot
masquerade as a block reference: once a value index reaches 2^30 (no bound in
`addValue` or `Insert` prevents this), the written word satisfies
`isBlockRef` and decodes to block index 2^24 — far beyond the single root
block a fresh trie's family has — so the referenced block does not exist. -/
theorem c8_blockref_masquerade :
    isBlockRef (encodeValue 1073741824 128) = true ∧
    decodeBlockRef (encodeValue 1073741824 128) = 16777216 ∧
    New.totalBlocks v6LPM = 1 := by
  decide

/-- C9: a value index whose shared-tier slot carries length byte 0 yields the
not-found result from `getValueByIndex`; consequently the empty value bound
to 172.16.0.0/12 is found before packing and reported not-found after pack
and load. -/
theorem c9_empty_shared_value (m : LPM) (i : Nat) (hi : i < m.sharedValueCount)
    (h0 : sharedStrLen m i = 0) :
    m.getValueByIndex i = ([], false) ∧
    ∃ s m', LPM.PackToSharedStorage (New.Insert ⟨[172, 16, 0, 0], 12⟩ []) =
        Except.ok s ∧
      NewWithSharedStorage s = Except.ok m' ∧
      (New.Insert ⟨[172, 16, 0, 0], 12⟩ []).Lookup [172, 16, 9, 9] = ([], true) ∧
      m'.Lookup [172, 16, 9, 9] = ([], false) := by
  constructor
  · unfold LPM.getValueByIndex
    rw [if_pos hi]
    by_cases hA : m.sharedValues = [] ∨ m.sharedValuesSlotSize = 0
    · rw [if_pos hA]
    · rw [if_neg hA]
      by_cases hB : m.sharedValues.length <
          i * m.sharedValuesSlotSize + m.sharedValuesSlotSize
      · rw [if_pos hB]
      · rw [if_neg hB]
        have h0x : m.sharedValues.getD (i * m.sharedValuesSlotSize) 0 = 0 := h0
        simp only [h0x]
        rw [if_pos (Or.inl trivial)]
  · refine ⟨_, _, LPM.PackToSharedStorage_ok _ (by decide) (by decide),
      LPM.NewWithSharedStorage_packedStorage _ (by decide) (by decide) (by decide)
        (by decide), by decide, by decide⟩

/-- C9 witness: the statement at the loaded image of the empty-value trie,
whose single shared value slot has length byte 0. -/
theorem c9_empty_shared_value_witness :
    (loadedState (New.Insert ⟨[10, 0, 0, 0], 8⟩ [])).getValueByIndex 0 =
      ([], false) ∧
    ∃ s m', LPM.PackToSharedStorage (New.Insert ⟨[172, 16, 0, 0], 12⟩ []) =
        Except.ok s ∧
      NewWithSharedStorage s = Except.ok m' ∧
      (New.Insert ⟨[172, 16, 0, 0], 12⟩ []).Lookup [172, 16, 9, 9] = ([], true) ∧
      m'.Lookup [172, 16, 9, 9] = ([], false) :=
  c9_empty_shared_value (loadedState (New.Insert ⟨[10, 0, 0, 0], 8⟩ [])) 0
    (by decide) (by decide)

/-- C10: an IPv4-mapped IPv6 address ::ffff:x.y.z.w is a 16-byte address, so
`Lookup` selects the IPv6 family for it, and an IPv4 insert (a 4-byte
prefix) leaves its lookup unchanged. -/
theorem c10_mapped_address_v6 (m : LPM) (net : Cidr) (v : List Nat)
    (x y z w : Nat) (hT : wfTiers m) (hnet : net.addr.length = 4)
    (hx : x < 256) (hy : y < 256) (hz : z < 256) (hw : w < 256)
    (hwf : wfValueRefs m v6LPM) :
    ((if ([0, 0, 0, 0, 0, 0, 0, 0, 0, 0, 255, 255, x, y, z, w] : List Nat).length = 16
        then v6LPM else v4LPM) = v6LPM) ∧
    (m.Insert net v).Lookup [0, 0, 0, 0, 0, 0, 0, 0, 0, 0, 255, 255, x, y, z, w] =
      m.Lookup [0, 0, 0, 0, 0, 0, 0, 0, 0, 0, 255, 255, x, y, z, w] := by
  refine ⟨rfl, ?_⟩
  apply LPM.Lookup_after_other_Insert m net v _ hT
  · intro h
    have h16 : net.addr.length = 16 := Eq.mp h rfl
    omega
  · intro q hq
    simp only [List.mem_cons, List.not_mem_nil, or_false] at hq
    rcases hq with rfl | rfl | rfl | rfl | rfl | rfl | rfl | rfl | rfl | rfl |
      rfl | rfl | rfl | rfl | rfl | rfl
    all_goals omega
  · exact hwf

/-- C10 witness: the statement at ::ffff:10.0.0.1 against the IPv4 insert
10.0.0.0/8 into a fresh trie. -/
theorem c10_mapped_address_v6_witness :
    ((if ([0, 0, 0, 0, 0, 0, 0, 0, 0, 0, 255, 255, 10, 0, 0, 1] : List Nat).length = 16
        then v6LPM else v4LPM) = v6LPM) ∧
    (New.Insert ⟨[10, 0, 0, 0], 8⟩ [65]).Lookup
        [0, 0, 0, 0, 0, 0, 0, 0, 0, 0, 255, 255, 10, 0, 0, 1] =
      New.Lookup [0, 0, 0, 0, 0, 0, 0, 0, 0, 0, 255, 255, 10, 0, 0, 1] :=
  c10_mapped_address_v6 New ⟨[10, 0, 0, 0], 8⟩ [65] 10 0 0 1 (by decide) rfl
    (by decide) (by decide) (by decide) (by decide) (by decide)

end Lpm
